import Mathlib

/-!
Verification development for the NNoM quantisation script
(`scripts/nnom_utils.py`): shift calibration, backward shift
reconciliation (`layers_output_ranges` / `update_previous_layer_shift`),
and weight/bias quantisation (`generate_weights`).

The Keras layer graph is embedded shallowly: a layer is a name, the list
of names of the layers producing its inputs (the Python code recovers
these names from tensor names via `name.split('/')[0]`; we store the
already-split producing-layer names), a flag recording whether
`layer.input` is a Python list (true exactly for multi-input merge
layers), the `activation` entry of the layer config, the sampled
activation values observed for the layer during calibration (the Python
code obtains them by running the model; they are external inputs here),
and the layer's weight variables.

Floating point numbers are modelled by `ℚ`; `int(np.ceil(np.log2 x))` is
modelled exactly by `Int.clog 2 x`.  The mutable `shift_list` dict is
modelled as a total function `String → Int` updated functionally; Python
would raise `KeyError` on a missing name, the total-function model reads
a junk value instead.
-/

set_option autoImplicit false

/-- Whether `sub` occurs at the start of `s` (on character lists). -/
def matchAt : List Char → List Char → Bool
  | [], _ => true
  | _ :: _, [] => false
  | a :: as, b :: bs => a == b && matchAt as bs

/-- Whether `sub` occurs anywhere in `s` (on character lists). -/
def containsAux (sub : List Char) (s : List Char) : Bool :=
  match s with
  | [] => matchAt sub []
  | _ :: rest => matchAt sub s || containsAux sub rest

/-- Substring test: Python's `sub in s`. -/
def strContains (s sub : String) : Bool :=
  containsAux sub.toList s.toList

/-- One weight variable of a layer (`layer.weights` entry): its Keras
variable name (e.g. `conv2d_1/kernel:0`) and its flattened values. -/
structure WVar where
  name : String
  values : List ℚ := []
  deriving DecidableEq, Repr

/-- A node of the layer graph, as used by `nnom_utils.py`. -/
structure Layer where
  name : String
  /-- Names of the layers producing this layer's inputs
  (`get_iname` of each element of `layer.input`). -/
  inputs : List String := []
  /-- Whether `layer.input` is a Python list (multi-input layer). -/
  listInput : Bool := false
  /-- `layer.get_config()['activation']`, consulted only when the layer
  name contains `activation`. -/
  activation : String := ""
  /-- Sampled activation values for this layer (computed externally by
  running the model on the calibration set). -/
  feats : List ℚ := []
  /-- `layer.weights`. -/
  wvars : List WVar := []
  deriving DecidableEq, Repr

/-- `is_input_layer`: `"input" in layer.name`. -/
def is_input_layer (name : String) : Bool :=
  strContains name ("input")

/-- `is_shift_layer`: layers which can change the output encoding. -/
def is_shift_layer (l : Layer) : Bool :=
  strContains l.name ("input") ||
  strContains l.name ("conv2d") ||
  strContains l.name ("conv1d") ||
  strContains l.name ("dense") ||
  strContains l.name ("softmax") ||
  strContains l.name ("sigmoid") ||
  strContains l.name ("tanh") ||
  (strContains l.name ("add") && !strContains l.name ("zero")) ||
  strContains l.name ("subtract") ||
  strContains l.name ("multiply") ||
  (strContains l.name ("activation") && l.activation == ("softmax")) ||
  (strContains l.name ("activation") && l.activation == ("sigmoid")) ||
  (strContains l.name ("activation") && l.activation == ("tanh"))

/-- `is_shift_fixed`: layers whose shift is fixed to a constant value. -/
def is_shift_fixed (l : Layer) : Bool :=
  strContains l.name ("softmax") ||
  strContains l.name ("sigmoid") ||
  strContains l.name ("tanh") ||
  (strContains l.name ("activation") && l.activation == ("softmax")) ||
  (strContains l.name ("activation") && l.activation == ("sigmoid")) ||
  (strContains l.name ("activation") && l.activation == ("tanh"))

/-- The `shift_list` dictionary: node name to fractional bits. -/
abbrev Table := String → Int

/-- Functional update of a `Table` (`shift_list[n] = v`). -/
def upd (s : Table) (n : String) (v : Int) : Table :=
  fun m => if m = n then v else s m

/-- `layer_dict[name]` built from `model.layers`. -/
def findLayer (g : List Layer) (n : String) : Option Layer :=
  g.find? (fun l => l.name == n)

/-- `Qmin` computation of `layers_output_ranges`: start from the first
input's recorded shift and fold `min` over all inputs. -/
def qminOf (s : Table) : List String → Int
  | [] => 0
  | i :: rest => rest.foldl (fun acc n => min acc (s n)) (s i)

/-- One pass of the loop body of `update_previous_layer_shift` over the
input-name list: write `q` into the table for every input (honouring
`skip_input`), and descend via `recur` into inputs whose producing layer
is not a shift layer.  `recur` stands for the recursive call at the next
(smaller) fuel. -/
def upls_inner (g : List Layer) (recur : List String → Table → Table)
    (q : Int) (skip : Bool) : List String → Table → Table
  | [], s => s
  | iname :: rest, s =>
    if skip && is_input_layer iname then
      upls_inner g recur q skip rest s
    else
      let s1 := upd s iname q
      let s2 :=
        match findLayer g iname with
        | some l => if is_shift_layer l then s1 else recur l.inputs s1
        | none => s1
      upls_inner g recur q skip rest s2

/-- `update_previous_layer_shift(init_layer, Qmin, skip_input)`, given the
input names of `init_layer`.  The Python recursion has no fuel; on the
acyclic graphs it is run on, recursion depth is bounded by the number of
layers, so callers pass the layer count as fuel.  Recursive calls use
`skip_input = True` (the Python default). -/
def update_previous_layer_shift (g : List Layer) :
    Nat → List String → Int → Bool → Table → Table
  | 0, _, _, _, s => s
  | fuel + 1, inames, q, skip, s =>
    upls_inner g (fun inames' s' => update_previous_layer_shift g fuel inames' q true s') q skip inames s

/-- The set (as a list) of table keys written by one
`upls_inner` pass; mirrors `upls_inner` exactly. -/
def writeSet_inner (g : List Layer) (recurW : List String → List String)
    (skip : Bool) : List String → List String
  | [] => []
  | iname :: rest =>
    if skip && is_input_layer iname then
      writeSet_inner g recurW skip rest
    else
      iname ::
        ((match findLayer g iname with
          | some l => if is_shift_layer l then [] else recurW l.inputs
          | none => []) ++ writeSet_inner g recurW skip rest)

/-- The set of table keys written by `update_previous_layer_shift`. -/
def writeSet (g : List Layer) : Nat → List String → Bool → List String
  | 0, _, _ => []
  | fuel + 1, inames, skip =>
    writeSet_inner g (fun inames' => writeSet g fuel inames' true) skip inames

/-- One iteration of the backward loop of `layers_output_ranges`
(`for layer in reversed(model.layers[1:])`): skip layers whose input is
not a list; otherwise compute `Qmin`, push it to all predecessors with
`skip_input=False`, and lower the layer's own entry when it is not a
shift layer or `Qmin` is smaller. -/
def stepFn (g : List Layer) (s : Table) (l : Layer) : Table :=
  if l.listInput then
    let q := qminOf s l.inputs
    let s' := update_previous_layer_shift g g.length l.inputs q false s
    if !is_shift_layer l || decide (q < s' l.name) then upd s' l.name q else s'
  else s

/-- The list of layers visited by the backward sweep:
`reversed(model.layers[1:])`. -/
def procList (g : List Layer) : List Layer :=
  (g.drop 1).reverse

/-- The backward reconciliation sweep of `layers_output_ranges`, applied
to an initial shift table. -/
def layers_output_ranges_sweep (g : List Layer) (s : Table) : Table :=
  (procList g).foldl (stepFn g) s

/-- All keys written by one `stepFn` iteration: the layer's own entry
plus the keys written by `update_previous_layer_shift`.  Empty for
layers whose input is not a list. -/
def stepWrites (g : List Layer) (l : Layer) : List String :=
  if l.listInput then l.name :: writeSet g g.length l.inputs false else []

/-- Two sweep iterations touch disjoint parts of the table. -/
abbrev disjW (g : List Layer) (a b : Layer) : Prop :=
  ∀ x ∈ stepWrites g a, x ∉ stepWrites g b

/-- `features.max()` (junk 0 on the empty list, where NumPy raises). -/
def listMax (l : List ℚ) : ℚ :=
  l.foldl max (l.headD 0)

/-- `features.min()` (junk 0 on the empty list, where NumPy raises). -/
def listMin (l : List ℚ) : ℚ :=
  l.foldl min (l.headD 0)

/-- `get_int_bits(min_value, max_value)`:
`int(np.ceil(np.log2(max([abs(min_value), abs(max_value), 1e-10]))))`.
`Int.clog 2 x` is exactly `⌈log₂ x⌉` for positive `x` (the argument is
always at least `1e-10 > 0`). -/
def get_int_bits (min_value max_value : ℚ) : Int :=
  Int.clog 2 (max |min_value| (max |max_value| (1 / 10000000000)))

/-- `np.round`: round half to even (banker's rounding). -/
def npRound (x : ℚ) : Int :=
  if x - ⌊x⌋ < 1 / 2 then ⌊x⌋
  else if 1 / 2 < x - ⌊x⌋ then ⌊x⌋ + 1
  else if ⌊x⌋ % 2 = 0 then ⌊x⌋ else ⌊x⌋ + 1

/-- `np.clip(v, lo, hi)`. -/
def npClip (v lo hi : ℚ) : ℚ :=
  min hi (max lo v)

/-- `np.arange(start, stop, step)`:
`start + i * step` for `i < ⌈(stop - start) / step⌉`. -/
def npArange (start stop step : ℚ) : List ℚ :=
  (List.range (⌈(stop - start) / step⌉).toNat).map fun i => start + i * step

/-- `np.histogram(vals, bins=edges)[0]`: counts per bin, bins are
half-open `[e_i, e_(i+1))` except the last, which is closed. -/
def npHistogram (vals : List ℚ) : List ℚ → List ℕ
  | e1 :: e2 :: rest =>
    (vals.countP fun v =>
        decide (e1 ≤ v) && (if rest.isEmpty then decide (v ≤ e2) else decide (v < e2)))
      :: npHistogram vals (e2 :: rest)
  | _ => []

/-- The redistribution loop of `dec_bits_by_kld` building `act_hist`
(length 2047) from the 255-bin quantised histogram `act` and the 2047-bin
reference histogram `flat_hist`: bucket `i * chunk + j` receives
`act[i] / none_zero` when `flat_hist[i * chunk + j] ≠ 0`, rows whose
`flat_hist` slice is all zero are skipped, and indices not covered by the
loop (`i ≥ 255`) keep their initial zero. -/
def kldActHist (flat_hist : List ℕ) (act : List ℕ) : List ℚ :=
  (List.range 2047).map fun idx =>
    let i := idx / 8
    if i < 255 then
      let row := ((flat_hist.drop (i * 8)).take 8).countP (fun n => n ≠ 0)
      if row = 0 then 0
      else if flat_hist.getD idx 0 ≠ 0 then (act.getD i 0 : ℚ) / row
      else 0
    else 0

/-- The loss computed by `dec_bits_by_kld` for one candidate shift
`dec`: quantise-dequantise the features at threshold `t = 2 ^ dec`, clip,
histogram against `q_bins`, redistribute to 2047 buckets, floor the zero
bins of the simulated histogram to `small_var = 1e-5` (the reference
histogram is an integer array in NumPy, so its `1e-5` assignment
truncates to zero and is a no-op), and apply the relative-entropy
function.  `entropy` (SciPy's `scipy.stats.entropy`, a floating-point
computation) is an abstract parameter. -/
def kldLossOne (entropy : List ℚ → List ℚ → ℚ) (features : List ℚ) (dec : Int) : ℚ :=
  let abs_max := max |listMax features| |listMin features|
  let bins := npArange (-abs_max) abs_max (abs_max / 2048 * 2)
  let q_bins := npArange (-abs_max) abs_max (abs_max / 256 * 2)
  let flat_hist := npHistogram features bins
  let t : ℚ := 2 ^ dec
  let act := features.map fun v => npClip ((npRound (v * t) : ℚ) / t) (-128 / t) (127 / t)
  let act_counts := npHistogram act q_bins
  let act_hist := kldActHist flat_hist act_counts
  let flat_q : List ℚ := flat_hist.map fun n => (n : ℚ)
  let act_q := act_hist.map fun x => if x = 0 then 1 / 100000 else x
  entropy flat_q act_q

/-- The four candidate losses of `dec_bits_by_kld`
(`for shift in range(4)`). -/
def kldLosses (entropy : List ℚ → List ℚ → ℚ) (features : List ℚ) (dec_bits : Int) : List ℚ :=
  (List.range 4).map fun shift => kldLossOne entropy features (dec_bits + shift)

/-- `np.argmin`: index of the first occurrence of the minimum. -/
def argMinIdx : List ℚ → ℕ
  | [] => 0
  | [_] => 0
  | x :: y :: rest =>
    let j := argMinIdx (y :: rest)
    if x ≤ (y :: rest).getD j 0 then 0 else j + 1

/-- `dec_bits_by_kld(layer, features, dec_bits)`: evaluate the four
candidate shifts `dec_bits + 0 .. dec_bits + 3` and return
`kld_shifts[np.argmin(kld_loss)]`. -/
def dec_bits_by_kld (entropy : List ℚ → List ℚ → ℚ) (features : List ℚ) (dec_bits : Int) : Int :=
  let kld_loss := kldLosses entropy features dec_bits
  let kld_shifts := (List.range 4).map fun shift => dec_bits + (shift : Int)
  kld_shifts.getD (argMinIdx kld_loss) 0

/-- The condition under which `make_initial_shift_list` refines a
layer's shift with the KLD search (source lines 208-213):
`"kld" in quantize_method and not is_shift_fixed(layer) and not
is_input_layer(layer) and "dense" not in layer.name`. -/
def kld_gate (quantize_method : String) (l : Layer) : Bool :=
  strContains quantize_method ("kld") && !is_shift_fixed l &&
    !is_input_layer l.name && !strContains l.name ("dense")

/-- Folding state of the layer loop of `make_initial_shift_list`: the
table built so far, the current `features` array, and `last_layer`'s
name (empty before the first iteration, where Python holds `None`). -/
structure InitState where
  tbl : Table
  feats : List ℚ
  lastName : String

/-- One iteration of the layer loop of `make_initial_shift_list`:
recompute `features` for input, shift, and batch-normalization layers
(the sampled values are supplied per layer as `l.feats`; other layers
keep the carried features), derive `dec_bits = 7 - get_int_bits`,
optionally refine by KLD, record the shift, and for a
batch-normalization layer overwrite the previous layer's entry.
`refine` abstracts `dec_bits_by_kld` applied to the current features. -/
def initial_step (quantize_method : String) (refine : Layer → List ℚ → Int → Int)
    (st : InitState) (l : Layer) : InitState :=
  let feats :=
    if is_input_layer l.name || is_shift_layer l || strContains l.name ("batch_normalization")
    then l.feats else st.feats
  let dec0 := 7 - get_int_bits (listMin feats) (listMax feats)
  let dec := if kld_gate quantize_method l then refine l feats dec0 else dec0
  let tbl := upd st.tbl l.name dec
  let tbl :=
    if strContains l.name ("batch_normalization") then upd tbl st.lastName dec else tbl
  { tbl := tbl, feats := feats, lastName := l.name }

/-- `make_initial_shift_list(model, x_test, quantize_method)` for a model
whose first layer is an input layer (so the `model.input` prepending and
the `':'` name splitting are no-ops); the initial table is a junk-zero
total function where Python has an empty dict. -/
def make_initial_shift_list (g : List Layer) (quantize_method : String)
    (refine : Layer → List ℚ → Int → Int) : Table :=
  (g.foldl (initial_step quantize_method refine) ⟨fun _ => 0, [], ""⟩).tbl

/-- `layers_output_ranges(model, x_test, quantize_method, ...)`: initial
calibration followed by the backward reconciliation sweep.  The random
shuffling/truncation of the calibration set happens before the per-layer
activation sampling and is reflected in the `feats` fields. -/
def layers_output_ranges (g : List Layer) (quantize_method : String)
    (refine : Layer → List ℚ → Int → Int) : Table :=
  layers_output_ranges_sweep g (make_initial_shift_list g quantize_method refine)

/-- Per-variable quantisation decision of `generate_weights` (the body
of `for var in layer.weights`, after the kernel/bias filter): given the
running `weight_dec_shift` and the variable, return the updated
`weight_dec_shift` and the final `dec_bits` for the variable.  Errors
model the `assert shift_list` for shift layers when no calibration data
is available. -/
def var_step : Option Table → Layer → Int → WVar → Except String (Int × Int)
  | none, l, wds, w =>
    let dec0 := 7 - get_int_bits (listMin w.values) (listMax w.values)
    let is_kernel := strContains w.name ("kernel")
    if is_shift_layer l then
      .error ((("Layer ") ++ l.name) ++ (" is classified as a shift layer so shift_list is required."))
    else if is_kernel then .ok (dec0, dec0)
    else .ok (wds, if dec0 > wds then wds else dec0)
  | some t, l, wds, w =>
    let dec0 := 7 - get_int_bits (listMin w.values) (listMax w.values)
    let is_kernel := strContains w.name ("kernel")
    if is_shift_layer l then
      if is_kernel then .ok (dec0, dec0)
      else
        let input_encoding := t (l.inputs.headD (""))
        if input_encoding + wds - dec0 < 0 then
          .ok (wds, if dec0 > wds then wds else dec0)
        else .ok (wds, dec0)
    else .ok (wds, dec0)

/-- The emitted integer array for one variable:
`np.round(var_values * 2 ** dec_bits)`.  No range check is performed. -/
def emit_var (dec : Int) (w : WVar) : List Int :=
  w.values.map fun v => npRound (v * (2 : ℚ) ^ dec)

/-- Propagate a fatal Python exception (case split on `Except`). -/
def exceptCase {α β : Type} (x : Except String α) (f : α → Except String β) :
    Except String β :=
  match x with
  | .error e => .error e
  | .ok a => f a

/-- The variable loop of `generate_weights` for one layer: skip
variables that are neither kernel nor bias, thread `weight_dec_shift`,
and collect `(variable name, final dec_bits, emitted values)`. -/
def process_vars_go (sl : Option Table) (l : Layer) :
    List WVar → Int → Except String (List (String × Int × List Int))
  | [], _ => .ok []
  | w :: rest, wds =>
    if !strContains w.name ("kernel") && !strContains w.name ("bias") then
      process_vars_go sl l rest wds
    else
      exceptCase (var_step sl l wds w) fun p =>
        exceptCase (process_vars_go sl l rest p.1) fun out =>
          .ok ((w.name, p.2, emit_var p.2 w) :: out)

/-- All quantised variables of one layer (`weight_dec_shift` starts at 0). -/
def process_vars (sl : Option Table) (l : Layer) :
    Except String (List (String × Int × List Int)) :=
  process_vars_go sl l l.wvars 0

/-- `layer.outbound_nodes[0].outbound_layer`: the first layer of the
graph consuming `l`'s output. -/
def firstConsumer (g : List Layer) (l : Layer) : Option Layer :=
  g.find? (fun c => c.inputs.contains l.name)

/-- The layer loop of `generate_weights`: skip weightless layers, raise
for a batch-normalization layer whose predecessor is not a convolution,
fuse a batch-normalization consumer into a convolution layer's weights
(`fuse` abstracts the floating-point `fuse_bn_to_conv` rewrite), then
quantise the layer's variables. -/
def gen_go (fuse : Layer → Layer → List WVar) (g : List Layer) (sl : Option Table) :
    List Layer → Except String (List (String × Int × List Int))
  | [] => .ok []
  | l :: rest =>
    if l.wvars.isEmpty then gen_go fuse g sl rest
    else if strContains l.name ("batch_normalization") &&
        !strContains (l.inputs.headD ("")) ("conv") then
      .error ((("Currently only support batch_normalization after conv, ") ++ l.name))
    else
      let l' :=
        match firstConsumer g l with
        | some c =>
          if strContains l.name ("conv") && strContains c.name ("batch_normalization")
          then { l with wvars := fuse l c } else l
        | none => l
      exceptCase (process_vars sl l') fun out =>
        exceptCase (gen_go fuse g sl rest) fun out2 => .ok (out ++ out2)

/-- The weight-quantisation core of `generate_weights(model, x_test)`:
the per-layer, per-variable quantisation decisions and emitted arrays
(file, layout transposition, and C-syntax emission are serialisation
only). -/
def generate_weights_core (fuse : Layer → Layer → List WVar) (g : List Layer)
    (sl : Option Table) : Except String (List (String × Int × List Int)) :=
  gen_go fuse g sl g

/-- Look up an emitted variable's `(dec_bits, values)` by variable name. -/
def emitted (out : List (String × Int × List Int)) (n : String) : Option (Int × List Int) :=
  (out.find? (fun e => e.1 == n)).map (fun e => e.2)

/-- The claim C1/C5 disjointness hypothesis examined further below:
no key is written by two distinct iterations of the sweep. -/
abbrev pairwiseDisj (g : List Layer) : Prop :=
  (procList g).Pairwise (disjW g)

/-! ### Concrete graphs used to settle the claims -/

/-- Diamond-with-shared-ancestor graph: three convolution branches off one
input; `add_1` merges branches 1 and 3, `add_2` merges branches 1 and 2,
so the two merge layers share the ancestor `conv2d_1`. -/
def cgA : List Layer :=
  [{ name := ("input_1") },
   { name := ("conv2d_1"), inputs := [("input_1")] },
   { name := ("conv2d_2"), inputs := [("input_1")] },
   { name := ("conv2d_3"), inputs := [("input_1")] },
   { name := ("add_1"), inputs := [("conv2d_1"), ("conv2d_3")], listInput := true },
   { name := ("add_2"), inputs := [("conv2d_1"), ("conv2d_2")], listInput := true }]

/-- Calibrated shifts for `cgA`: branches 1 and 2 at 5, branch 3 at 3. -/
def csA : Table := fun n =>
  if n = ("input_1") then 7
  else if n = ("conv2d_1") then 5
  else if n = ("conv2d_2") then 5
  else if n = ("conv2d_3") then 3
  else if n = ("add_1") then 5
  else if n = ("add_2") then 5
  else 0

/-- Two-branch graph with a pass-through pooling layer on the first
branch: `conv2d_1 → max_pooling2d_1` (calibrated 5) and `conv2d_2`
(calibrated 3) feed `add_1`. -/
def cgB : List Layer :=
  [{ name := ("input_1") },
   { name := ("conv2d_1"), inputs := [("input_1")] },
   { name := ("conv2d_2"), inputs := [("input_1")] },
   { name := ("max_pooling2d_1"), inputs := [("conv2d_1")] },
   { name := ("add_1"), inputs := [("max_pooling2d_1"), ("conv2d_2")], listInput := true }]

/-- Calibrated shifts for `cgB`. -/
def csB : Table := fun n =>
  if n = ("input_1") then 7
  else if n = ("conv2d_1") then 5
  else if n = ("conv2d_2") then 3
  else if n = ("max_pooling2d_1") then 5
  else if n = ("add_1") then 5
  else 0

/-- Two-branch graph whose first branch ends in a sigmoid (format-fixed)
layer: `conv2d_2 → sigmoid_1` (calibrated 7) and `conv2d_1`
(calibrated 3) feed `add_1`. -/
def cgC : List Layer :=
  [{ name := ("input_1") },
   { name := ("conv2d_2"), inputs := [("input_1")] },
   { name := ("sigmoid_1"), inputs := [("conv2d_2")] },
   { name := ("conv2d_1"), inputs := [("input_1")] },
   { name := ("add_1"), inputs := [("sigmoid_1"), ("conv2d_1")], listInput := true }]

/-- Calibrated shifts for `cgC`. -/
def csC : Table := fun n =>
  if n = ("input_1") then 7
  else if n = ("conv2d_2") then 5
  else if n = ("sigmoid_1") then 7
  else if n = ("conv2d_1") then 3
  else if n = ("add_1") then 5
  else 0

/-- Graph whose input layer is a direct predecessor of a merge layer:
`input_1` (calibrated 7) and `conv2d_1` (calibrated 3) feed `add_1`. -/
def cgD : List Layer :=
  [{ name := ("input_1") },
   { name := ("conv2d_1"), inputs := [("input_1")] },
   { name := ("add_1"), inputs := [("input_1"), ("conv2d_1")], listInput := true }]

/-- Calibrated shifts for `cgD`. -/
def csD : Table := fun n =>
  if n = ("input_1") then 7
  else if n = ("conv2d_1") then 3
  else if n = ("add_1") then 5
  else 0

/-- A bare dense layer, used to probe the KLD gate. -/
def denseLayer : Layer := { name := ("dense_1") }

/-- The KLD gate as worded by the claim (for comparison with the source's
`kld_gate`): the refinement applies to every non-format-fixed, non-input
node when the kld method is selected. -/
def kld_gate_claim (quantize_method : String) (l : Layer) : Bool :=
  strContains quantize_method ("kld") && !is_shift_fixed l && !is_input_layer l.name

/-- Three-layer chain used to observe the KLD gate through
`make_initial_shift_list`: input, convolution, dense. -/
def cg7 : List Layer :=
  [{ name := ("input_1"), feats := [-1, 1] },
   { name := ("conv2d_1"), inputs := [("input_1")], feats := [-1, 1] },
   { name := ("dense_1"), inputs := [("conv2d_1")], feats := [-1, 1] }]

/-- Graph for the bias-fallback claim: the input activations reach
`±512`, so the input format calibrates to `-2`; the convolution kernel
spans `±4` (kernel shift 5) and its bias `±8` (own bias shift 4). -/
def cg8 : List Layer :=
  [{ name := ("input_1"), feats := [-512, 512] },
   { name := ("conv2d_1"), inputs := [("input_1")], feats := [1],
     wvars := [{ name := ("conv2d_1/kernel:0"), values := [4, -4] },
               { name := ("conv2d_1/bias:0"), values := [8, -8] }] }]

/-- The reconciled shift table of `cg8` (no merge layers, so the sweep
is the identity on the calibrated table). -/
def sl8 : Table :=
  layers_output_ranges cg8 ("max_min") (fun _ _ d => d)

/-- Graph for the out-of-range claim: a kernel value of exactly `2`
calibrates to 6 fractional bits and quantises to `round(2 * 64) = 128`,
outside the signed 8-bit range. -/
def cg9 : List Layer :=
  [{ name := ("input_1"), feats := [-1, 1] },
   { name := ("conv2d_1"), inputs := [("input_1")], feats := [1 / 2],
     wvars := [{ name := ("conv2d_1/kernel:0"), values := [2] },
               { name := ("conv2d_1/bias:0"), values := [3 / 4] }] }]

/-- The reconciled shift table of `cg9`. -/
def sl9 : Table :=
  layers_output_ranges cg9 ("max_min") (fun _ _ d => d)

/-- Graph for the normalization-topology claim: a batch-normalization
layer directly following a dense (weighted) layer. -/
def cg10 : List Layer :=
  [{ name := ("input_1") },
   { name := ("dense_1"), inputs := [("input_1")],
     wvars := [{ name := ("dense_1/kernel:0"), values := [1] },
               { name := ("dense_1/bias:0"), values := [1] }] },
   { name := ("batch_normalization_1"), inputs := [("dense_1")],
     wvars := [{ name := ("batch_normalization_1/gamma:0"), values := [1] }] }]

/-- A constant shift table for `cg10` (its value is irrelevant to the
topology check). -/
def t10 : Table := fun _ => 5

/-- The claim's topology condition, for comparison with the source's
check: every normalization node directly follows a weighted node
(convolution or dense). -/
def claim_bn_ok (g : List Layer) : Bool :=
  g.all fun l =>
    !strContains l.name ("batch_normalization") ||
      (strContains (l.inputs.headD ("")) ("conv") ||
       strContains (l.inputs.headD ("")) ("dense"))

/-- A trivial stand-in for the batch-normalization fusion rewrite, used
where no fusion can occur. -/
def fuse0 : Layer → Layer → List WVar := fun _ _ => []

/-- The bias-shift rule actually implemented by `generate_weights` with
calibration data (for comparison with the claim, which omits the second
conjunct): the bias reuses the kernel shift only when the alignment
`input_shift + kernel_shift - bias_shift` is negative AND the bias's own
shift exceeds the kernel's. -/
def bias_dec_amended (input_encoding wdec bown : Int) : Int :=
  if input_encoding + wdec - bown < 0 ∧ wdec < bown then wdec else bown

/-- The quantisation output of `generate_weights` on `cg8`: the kernel
keeps its own shift 5; the bias alignment `-2 + 5 - 4` is negative but
the bias's own shift 4 does not exceed the kernel's 5, so the bias
keeps shift 4 (not the kernel's 5 the claim predicts). -/
def out8 : List (String × Int × List Int) :=
  [(("conv2d_1/kernel:0"), 5, [128, -128]),
   (("conv2d_1/bias:0"), 4, [128, -128])]

/-- The quantisation output of `generate_weights` on `cg9`: the kernel
value 2 at shift 6 is emitted as 128, outside the signed 8-bit range,
with no error or warning. -/
def out9 : List (String × Int × List Int) :=
  [(("conv2d_1/kernel:0"), 6, [128]),
   (("conv2d_1/bias:0"), 7, [96])]

/-! ### Evaluating `Int.clog` on concrete rationals -/

/-- `Int.clog 2 q = k` follows from the ceiling-logarithm bounds
`2 ^ (k - 1) < q ≤ 2 ^ k`. -/
lemma clog2_eq_of (q : ℚ) (k : Int) (h1 : q ≤ (2 : ℚ) ^ k) (h2 : (2 : ℚ) ^ (k - 1) < q) :
    Int.clog 2 q = k := by
  have hq : 0 < q := lt_trans (by positivity) h2
  have hb : 1 < 2 := one_lt_two
  apply le_antisymm
  · rw [← Int.le_zpow_iff_clog_le hb hq]
    exact_mod_cast h1
  · have h3 : ((2 : ℕ) : ℚ) ^ (k - 1) < q := by exact_mod_cast h2
    have h4 := (Int.zpow_lt_iff_lt_clog hb hq).mp h3
    omega

/-- Evaluation of `get_int_bits` from the same power-of-two bounds on
`max(|min|, |max|, 1e-10)`. -/
lemma get_int_bits_eq_of (mn mx : ℚ) (k : Int)
    (h1 : max |mn| (max |mx| (1 / 10000000000)) ≤ (2 : ℚ) ^ k)
    (h2 : (2 : ℚ) ^ (k - 1) < max |mn| (max |mx| (1 / 10000000000))) :
    get_int_bits mn mx = k :=
  clog2_eq_of _ k h1 h2

/-! ### Structural lemmas for the backward sweep -/

lemma upd_same (s : Table) (n : String) (v : Int) : upd s n v n = v := by
  simp [upd]

lemma upd_other (s : Table) (n : String) (v : Int) (m : String) (h : m ≠ n) :
    upd s n v m = s m := by
  simp [upd, h]

/-- Every table entry after one `upls_inner` pass is either untouched or
equal to the pushed target `q`, provided the recursive calls have the
same property. -/
lemma upls_inner_vals (g : List Layer) (recur : List String → Table → Table)
    (q : Int) (skip : Bool)
    (hrec : ∀ xs s' n, recur xs s' n = s' n ∨ recur xs s' n = q) :
    ∀ (inames : List String) (s : Table) (n : String),
      upls_inner g recur q skip inames s n = s n ∨
        upls_inner g recur q skip inames s n = q := by
  intro inames
  induction inames with
  | nil => intro s n; left; rfl
  | cons iname rest ih =>
    intro s n
    by_cases hskip : (skip && is_input_layer iname) = true
    · simp only [upls_inner, hskip, if_true]
      exact ih s n
    · simp only [upls_inner, hskip, if_false, Bool.false_eq_true]
      set s1 := upd s iname q with hs1
      have h1 : s1 n = s n ∨ s1 n = q := by
        by_cases hn : n = iname
        · right; rw [hs1, hn]; exact upd_same s iname q
        · left; rw [hs1]; exact upd_other s iname q n hn
      rcases hfl : findLayer g iname with _ | l
      · simp only [hfl]
        rcases ih s1 n with h | h
        · rcases h1 with h1 | h1
          · left; rw [h, h1]
          · right; rw [h, h1]
        · right; exact h
      · simp only [hfl]
        by_cases hsh : is_shift_layer l = true
        · simp only [hsh, if_true]
          rcases ih s1 n with h | h
          · rcases h1 with h1 | h1
            · left; rw [h, h1]
            · right; rw [h, h1]
          · right; exact h
        · simp only [hsh, if_false, Bool.false_eq_true]
          have h2 : recur l.inputs s1 n = s1 n ∨ recur l.inputs s1 n = q := hrec _ _ _
          rcases ih (recur l.inputs s1) n with h | h
          · rcases h2 with h2 | h2
            · rcases h1 with h1 | h1
              · left; rw [h, h2, h1]
              · right; rw [h, h2, h1]
            · right; rw [h, h2]
          · right; exact h

/-- Every table entry after `update_previous_layer_shift` is either
untouched or equal to the pushed target `q`. -/
lemma update_vals (g : List Layer) (q : Int) :
    ∀ (fuel : Nat) (inames : List String) (skip : Bool) (s : Table) (n : String),
      update_previous_layer_shift g fuel inames q skip s n = s n ∨
        update_previous_layer_shift g fuel inames q skip s n = q := by
  intro fuel
  induction fuel with
  | zero => intro inames skip s n; left; rfl
  | succ fuel ih =>
    intro inames skip s n
    exact upls_inner_vals g _ q skip (fun xs s' m => ih xs true s' m) inames s n

/-- Entries outside `writeSet_inner` are untouched by `upls_inner`,
provided recursive calls only write inside their `recurW` sets. -/
lemma upls_inner_frame (g : List Layer) (recur : List String → Table → Table)
    (recurW : List String → List String) (q : Int) (skip : Bool)
    (hrecF : ∀ xs s' n, n ∉ recurW xs → recur xs s' n = s' n) :
    ∀ (inames : List String) (s : Table) (n : String),
      n ∉ writeSet_inner g recurW skip inames →
        upls_inner g recur q skip inames s n = s n := by
  intro inames
  induction inames with
  | nil => intro s n _; rfl
  | cons iname rest ih =>
    intro s n hn
    by_cases hskip : (skip && is_input_layer iname) = true
    · simp only [upls_inner, hskip, if_true]
      simp only [writeSet_inner, hskip, if_true] at hn
      exact ih s n hn
    · simp only [upls_inner, hskip, if_false, Bool.false_eq_true]
      simp only [writeSet_inner, hskip, if_false, Bool.false_eq_true, List.mem_cons,
        List.mem_append, not_or] at hn
      obtain ⟨hne, hnest, hrest⟩ := hn
      have h1 : upd s iname q n = s n := upd_other s iname q n hne
      rcases hfl : findLayer g iname with _ | l
      · simp only [hfl]
        rw [ih _ n hrest, h1]
      · simp only [hfl] at hnest ⊢
        by_cases hsh : is_shift_layer l = true
        · simp only [hsh, if_true]
          rw [ih _ n hrest, h1]
        · simp only [hsh, if_false, Bool.false_eq_true] at hnest ⊢
          rw [ih _ n hrest, hrecF _ _ _ hnest, h1]

/-- Entries outside `writeSet` are untouched by
`update_previous_layer_shift`. -/
lemma update_frame (g : List Layer) (q : Int) :
    ∀ (fuel : Nat) (inames : List String) (skip : Bool) (s : Table) (n : String),
      n ∉ writeSet g fuel inames skip →
        update_previous_layer_shift g fuel inames q skip s n = s n := by
  intro fuel
  induction fuel with
  | zero => intro inames skip s n _; rfl
  | succ fuel ih =>
    intro inames skip s n hn
    exact upls_inner_frame g _ _ q skip (fun xs s' m hm => ih xs true s' m hm) inames s n hn

/-- Entries inside `writeSet_inner` hold exactly `q` after `upls_inner`,
provided recursive calls write `q` inside their sets and only ever
write `q`. -/
lemma upls_inner_mem (g : List Layer) (recur : List String → Table → Table)
    (recurW : List String → List String) (q : Int) (skip : Bool)
    (hvals : ∀ xs s' n, recur xs s' n = s' n ∨ recur xs s' n = q)
    (hmem : ∀ xs s' n, n ∈ recurW xs → recur xs s' n = q) :
    ∀ (inames : List String) (s : Table) (n : String),
      n ∈ writeSet_inner g recurW skip inames →
        upls_inner g recur q skip inames s n = q := by
  intro inames
  induction inames with
  | nil => intro s n hn; simp [writeSet_inner] at hn
  | cons iname rest ih =>
    intro s n hn
    by_cases hskip : (skip && is_input_layer iname) = true
    · simp only [upls_inner, hskip, if_true]
      simp only [writeSet_inner, hskip, if_true] at hn
      exact ih s n hn
    · simp only [upls_inner, hskip, if_false, Bool.false_eq_true]
      simp only [writeSet_inner, hskip, if_false, Bool.false_eq_true, List.mem_cons,
        List.mem_append] at hn
      by_cases hrest : n ∈ writeSet_inner g recurW skip rest
      · rcases hfl : findLayer g iname with _ | l
        · simp only [hfl]; exact ih _ n hrest
        · simp only [hfl]
          by_cases hsh : is_shift_layer l = true
          · simp only [hsh, if_true]; exact ih _ n hrest
          · simp only [hsh, if_false, Bool.false_eq_true]; exact ih _ n hrest
      · have hn2 : n = iname ∨
            n ∈ (match findLayer g iname with
                 | some l => if is_shift_layer l then [] else recurW l.inputs
                 | none => []) := by
          rcases hn with h | h | h
          · left; exact h
          · right; exact h
          · exact absurd h hrest
        have key : ∀ s2 : Table, s2 n = q →
            upls_inner g recur q skip rest s2 n = q := by
          intro s2 h2
          rcases upls_inner_vals g recur q skip hvals rest s2 n with h | h
          · rw [h, h2]
          · exact h
        rcases hfl : findLayer g iname with _ | l
        · simp only [hfl] at hn2 ⊢
          rcases hn2 with h | h
          · exact key _ (by rw [h]; exact upd_same s iname q)
          · simp at h
        · simp only [hfl] at hn2 ⊢
          by_cases hsh : is_shift_layer l = true
          · simp only [hsh, if_true] at hn2 ⊢
            rcases hn2 with h | h
            · exact key _ (by rw [h]; exact upd_same s iname q)
            · simp at h
          · simp only [hsh, if_false, Bool.false_eq_true] at hn2 ⊢
            rcases hn2 with h | h
            · refine key _ ?_
              rcases hvals l.inputs (upd s iname q) n with hv | hv
              · rw [hv, h]; exact upd_same s iname q
              · exact hv
            · exact key _ (hmem _ _ _ h)

/-- Entries inside `writeSet` hold exactly `q` after
`update_previous_layer_shift`. -/
lemma update_mem (g : List Layer) (q : Int) :
    ∀ (fuel : Nat) (inames : List String) (skip : Bool) (s : Table) (n : String),
      n ∈ writeSet g fuel inames skip →
        update_previous_layer_shift g fuel inames q skip s n = q := by
  intro fuel
  induction fuel with
  | zero => intro inames skip s n hn; simp [writeSet] at hn
  | succ fuel ih =>
    intro inames skip s n hn
    exact upls_inner_mem g _ _ q skip (fun xs s' m => update_vals g q fuel xs true s' m)
      (fun xs s' m hm => ih xs true s' m hm) inames s n hn

/-- With `skip_input = False`, every direct input is in the written set. -/
lemma mem_writeSet_inner_self (g : List Layer) (recurW : List String → List String) :
    ∀ (inames : List String) (n : String), n ∈ inames →
      n ∈ writeSet_inner g recurW false inames := by
  intro inames
  induction inames with
  | nil => intro n hn; simp at hn
  | cons iname rest ih =>
    intro n hn
    simp only [writeSet_inner, Bool.false_and, if_false, Bool.false_eq_true, List.mem_cons,
      List.mem_append]
    rcases List.mem_cons.mp hn with h | h
    · left; exact h
    · right; right; exact ih n h

/-- With positive fuel and `skip_input = False`, every direct input is
in `writeSet`. -/
lemma mem_writeSet_self (g : List Layer) (fuel : Nat) (inames : List String)
    (n : String) (hn : n ∈ inames) : n ∈ writeSet g (fuel + 1) inames false :=
  mem_writeSet_inner_self g _ inames n hn

/-- The running fold of `Qmin` is bounded by its seed and by every
visited entry. -/
lemma foldl_min_le (s : Table) :
    ∀ (xs : List String) (a : Int),
      xs.foldl (fun acc n => min acc (s n)) a ≤ a ∧
        ∀ i ∈ xs, xs.foldl (fun acc n => min acc (s n)) a ≤ s i := by
  intro xs
  induction xs with
  | nil => intro a; exact ⟨le_refl a, by simp⟩
  | cons x xs ih =>
    intro a
    obtain ⟨h1, h2⟩ := ih (min a (s x))
    refine ⟨le_trans h1 (min_le_left _ _), ?_⟩
    intro i hi
    rcases List.mem_cons.mp hi with h | h
    · subst h; exact le_trans h1 (min_le_right _ _)
    · exact h2 i h

/-- The running fold of `Qmin` is its seed or one of the visited entries. -/
lemma foldl_min_cases (s : Table) :
    ∀ (xs : List String) (a : Int),
      xs.foldl (fun acc n => min acc (s n)) a = a ∨
        ∃ i ∈ xs, xs.foldl (fun acc n => min acc (s n)) a = s i := by
  intro xs
  induction xs with
  | nil => intro a; left; rfl
  | cons x xs ih =>
    intro a
    simp only [List.foldl_cons]
    rcases ih (min a (s x)) with h | ⟨i, hi, h⟩
    · rcases min_cases a (s x) with ⟨hm, _⟩ | ⟨hm, _⟩
      · left; rw [h, hm]
      · right; exact ⟨x, List.mem_cons_self x xs, by rw [h, hm]⟩
    · right; exact ⟨i, List.mem_cons_of_mem x hi, h⟩

/-- `Qmin` is a lower bound of the inputs' entries. -/
lemma qminOf_le (s : Table) (inames : List String) :
    ∀ i ∈ inames, qminOf s inames ≤ s i := by
  cases inames with
  | nil => simp
  | cons i rest =>
    intro j hj
    rcases List.mem_cons.mp hj with h | h
    · subst h; exact (foldl_min_le s rest (s j)).1
    · exact (foldl_min_le s rest (s i)).2 j h

/-- `Qmin` is attained at one of the inputs. -/
lemma qminOf_mem (s : Table) (inames : List String) (h : inames ≠ []) :
    ∃ i ∈ inames, qminOf s inames = s i := by
  cases inames with
  | nil => exact absurd rfl h
  | cons i rest =>
    rcases foldl_min_cases s rest (s i) with h1 | ⟨j, hj, h1⟩
    · exact ⟨i, List.mem_cons_self i rest, h1⟩
    · exact ⟨j, List.mem_cons_of_mem i hj, h1⟩

/-- `Qmin` only depends on the table's values at the inputs. -/
lemma qminOf_congr (s₁ s₂ : Table) (inames : List String)
    (h : ∀ i ∈ inames, s₁ i = s₂ i) :
    qminOf s₁ inames = qminOf s₂ inames := by
  cases inames with
  | nil => rfl
  | cons i rest =>
    show rest.foldl (fun acc n => min acc (s₁ n)) (s₁ i) =
      rest.foldl (fun acc n => min acc (s₂ n)) (s₂ i)
    rw [h i (List.mem_cons_self i rest)]
    have : ∀ (xs : List String) (a : Int), (∀ j ∈ xs, s₁ j = s₂ j) →
        xs.foldl (fun acc n => min acc (s₁ n)) a = xs.foldl (fun acc n => min acc (s₂ n)) a := by
      intro xs
      induction xs with
      | nil => intro a _; rfl
      | cons x xs ih =>
        intro a hx
        show List.foldl _ (min a (s₁ x)) xs = List.foldl _ (min a (s₂ x)) xs
        rw [hx x (List.mem_cons_self x xs)]
        exact ih _ (fun j hj => hx j (List.mem_cons_of_mem x hj))
    exact this rest _ (fun j hj => h j (List.mem_cons_of_mem i hj))

/-- `Qmin` of a table that is constant on the inputs. -/
lemma qminOf_const (s : Table) (inames : List String) (c : Int) (h : inames ≠ [])
    (hall : ∀ i ∈ inames, s i = c) : qminOf s inames = c := by
  obtain ⟨i, hi, hq⟩ := qminOf_mem s inames h
  rw [hq, hall i hi]

/-! ### Lemmas about one sweep iteration (`stepFn`) -/

/-- Entries outside `stepWrites` are untouched by one sweep iteration. -/
lemma stepFn_frame (g : List Layer) (s : Table) (l : Layer) (n : String)
    (hn : n ∉ stepWrites g l) : stepFn g s l n = s n := by
  by_cases hl : l.listInput = true
  · simp only [stepWrites, hl, if_true, List.mem_cons, not_or] at hn
    obtain ⟨hname, hws⟩ := hn
    simp only [stepFn, hl, if_true]
    have h1 : update_previous_layer_shift g g.length l.inputs (qminOf s l.inputs) false s n
        = s n := update_frame g _ _ _ _ s n hws
    by_cases hc : (!is_shift_layer l ||
        decide (qminOf s l.inputs <
          update_previous_layer_shift g g.length l.inputs (qminOf s l.inputs) false s l.name)) = true
    · simp only [hc, if_true]
      rw [upd_other _ _ _ n hname, h1]
    · simp only [hc, if_false, Bool.false_eq_true]
      exact h1
  · simp only [stepFn, hl, if_false, Bool.false_eq_true]

/-- Entries inside the pushed region hold `Qmin` after one sweep
iteration (positive layer count). -/
lemma stepFn_writeSet (g : List Layer) (s : Table) (l : Layer) (n : String)
    (hl : l.listInput = true) (hn : n ∈ writeSet g g.length l.inputs false) :
    stepFn g s l n = qminOf s l.inputs := by
  simp only [stepFn, hl, if_true]
  have h1 : update_previous_layer_shift g g.length l.inputs (qminOf s l.inputs) false s n
      = qminOf s l.inputs := update_mem g _ _ _ _ s n hn
  by_cases hc : (!is_shift_layer l ||
      decide (qminOf s l.inputs <
        update_previous_layer_shift g g.length l.inputs (qminOf s l.inputs) false s l.name)) = true
  · simp only [hc, if_true]
    by_cases hname : n = l.name
    · rw [hname]; exact upd_same _ _ _
    · rw [upd_other _ _ _ n hname]; exact h1
  · simp only [hc, if_false, Bool.false_eq_true]
    exact h1

/-- After one sweep iteration over a multi-input layer, every key of
`stepWrites` holds either `Qmin` or the layer's own old entry (the
latter only possible at the layer's own name). -/
lemma stepFn_writes_cases (g : List Layer) (s : Table) (l : Layer) (n : String)
    (hl : l.listInput = true) (hn : n ∈ stepWrites g l) :
    stepFn g s l n = qminOf s l.inputs ∨
      (n = l.name ∧ stepFn g s l n = s l.name) := by
  simp only [stepWrites, hl, if_true, List.mem_cons] at hn
  by_cases hws : n ∈ writeSet g g.length l.inputs false
  · left; exact stepFn_writeSet g s l n hl hws
  · have hname : n = l.name := by
      rcases hn with h | h
      · exact h
      · exact absurd h hws
    subst hname
    simp only [stepFn, hl, if_true]
    have h1 : update_previous_layer_shift g g.length l.inputs (qminOf s l.inputs) false s l.name
        = s l.name := update_frame g _ _ _ _ s l.name hws
    by_cases hc : (!is_shift_layer l ||
        decide (qminOf s l.inputs <
          update_previous_layer_shift g g.length l.inputs (qminOf s l.inputs) false s l.name)) = true
    · simp only [hc, if_true]
      left; exact upd_same _ _ _
    · simp only [hc, if_false, Bool.false_eq_true]
      right; exact ⟨by trivial, h1⟩

/-- One sweep iteration reads and writes only inside `stepWrites`:
applied to two tables agreeing there, it produces the same values
there. -/
lemma stepFn_congr (g : List Layer) (hg : g ≠ []) (l : Layer) (s₁ s₂ : Table)
    (h : ∀ x ∈ stepWrites g l, s₁ x = s₂ x) :
    ∀ n ∈ stepWrites g l, stepFn g s₁ l n = stepFn g s₂ l n := by
  intro n hn
  by_cases hl : l.listInput = true
  case neg => simp [stepWrites, hl] at hn
  have hsub : ∀ i ∈ l.inputs, i ∈ stepWrites g l := by
    intro i hi
    simp only [stepWrites, hl, if_true, List.mem_cons]
    right
    obtain ⟨k, hk⟩ : ∃ k, g.length = k + 1 := by
      have : 0 < g.length := List.length_pos.mpr hg
      exact ⟨g.length - 1, by omega⟩
    rw [hk]
    exact mem_writeSet_self g k l.inputs i hi
  have hq : qminOf s₁ l.inputs = qminOf s₂ l.inputs :=
    qminOf_congr _ _ _ (fun i hi => h i (hsub i hi))
  by_cases hws : n ∈ writeSet g g.length l.inputs false
  · rw [stepFn_writeSet g s₁ l n hl hws, stepFn_writeSet g s₂ l n hl hws, hq]
  · have hname : n = l.name := by
      simp only [stepWrites, hl, if_true, List.mem_cons] at hn
      tauto
    subst hname
    have hns : s₁ l.name = s₂ l.name := h _ hn
    simp only [stepFn, hl, if_true]
    have e₁ : update_previous_layer_shift g g.length l.inputs (qminOf s₁ l.inputs) false s₁ l.name
        = s₁ l.name := update_frame g _ _ _ _ _ _ hws
    have e₂ : update_previous_layer_shift g g.length l.inputs (qminOf s₂ l.inputs) false s₂ l.name
        = s₂ l.name := update_frame g _ _ _ _ _ _ hws
    have c₁ : (!is_shift_layer l ||
        decide (qminOf s₁ l.inputs <
          update_previous_layer_shift g g.length l.inputs (qminOf s₁ l.inputs) false s₁ l.name))
        = (!is_shift_layer l || decide (qminOf s₂ l.inputs < s₂ l.name)) := by
      rw [e₁, hq, hns]
    have c₂ : (!is_shift_layer l ||
        decide (qminOf s₂ l.inputs <
          update_previous_layer_shift g g.length l.inputs (qminOf s₂ l.inputs) false s₂ l.name))
        = (!is_shift_layer l || decide (qminOf s₂ l.inputs < s₂ l.name)) := by
      rw [e₂]
    simp only [c₁, c₂]
    by_cases hc : (!is_shift_layer l || decide (qminOf s₂ l.inputs < s₂ l.name)) = true
    · simp only [hc, if_true]
      rw [upd_same, upd_same, hq]
    · simp only [hc, if_false, Bool.false_eq_true]
      rw [e₁, e₂, hns]

/-- Keys untouched by every iteration of a fold of sweep steps keep
their value. -/
lemma fold_frame (g : List Layer) :
    ∀ (L : List Layer) (s : Table) (n : String),
      (∀ l ∈ L, n ∉ stepWrites g l) → L.foldl (stepFn g) s n = s n := by
  intro L
  induction L with
  | nil => intro s n _; rfl
  | cons l L ih =>
    intro s n h
    simp only [List.foldl_cons]
    rw [ih (stepFn g s l) n (fun b hb => h b (List.mem_cons_of_mem l hb))]
    exact stepFn_frame g s l n (h l (List.mem_cons_self l L))

/-- Disjointness of step write-sets is symmetric. -/
lemma disjW_symm (g : List Layer) (a b : Layer) (h : disjW g a b) : disjW g b a :=
  fun x hx hxa => h x hxa hx

/-- When the iterations of the sweep have pairwise disjoint write sets,
the final value of any key written by iteration `m` is as if `m` ran
alone on the initial table. -/
lemma sweep_localize (g : List Layer) (hg : g ≠ []) :
    ∀ (L : List Layer), L.Pairwise (disjW g) →
      ∀ m ∈ L, ∀ n ∈ stepWrites g m, ∀ s : Table,
        L.foldl (stepFn g) s n = stepFn g s m n := by
  intro L
  induction L with
  | nil => intro _ m hm; simp at hm
  | cons l L ih =>
    intro hp m hm n hn s
    obtain ⟨h1, h2⟩ := List.pairwise_cons.mp hp
    simp only [List.foldl_cons]
    rcases List.mem_cons.mp hm with rfl | hm'
    · exact fold_frame g L (stepFn g s m) n (fun b hb => h1 b hb n hn)
    · rw [ih h2 m hm' n hn (stepFn g s l)]
      exact stepFn_congr g hg m _ _
        (fun x hx => stepFn_frame g s l x (fun hxl => h1 m hm' x hxl hx)) n hn

/-- Value of a multi-input layer's own entry after its sweep iteration,
when its own name is outside the pushed region. -/
lemma stepFn_name_notin (g : List Layer) (s : Table) (l : Layer)
    (hl : l.listInput = true) (hws : l.name ∉ writeSet g g.length l.inputs false) :
    stepFn g s l l.name =
      if (!is_shift_layer l || decide (qminOf s l.inputs < s l.name)) = true
      then qminOf s l.inputs else s l.name := by
  simp only [stepFn, hl, if_true]
  have e₁ : update_previous_layer_shift g g.length l.inputs (qminOf s l.inputs) false s l.name
      = s l.name := update_frame g _ _ _ _ _ _ hws
  have c₁ : (!is_shift_layer l ||
      decide (qminOf s l.inputs <
        update_previous_layer_shift g g.length l.inputs (qminOf s l.inputs) false s l.name))
      = (!is_shift_layer l || decide (qminOf s l.inputs < s l.name)) := by
    rw [e₁]
  simp only [c₁]
  by_cases hc : (!is_shift_layer l || decide (qminOf s l.inputs < s l.name)) = true
  · simp only [hc, if_true]
    exact upd_same _ _ _
  · simp only [hc, if_false, Bool.false_eq_true]
    exact e₁

/-- With `skip_input = True`, `upls_inner` never writes an input-named
key, provided recursive calls don't either. -/
lemma upls_inner_skip_input (g : List Layer) (recur : List String → Table → Table)
    (q : Int)
    (hrecI : ∀ xs s' n, is_input_layer n = true → recur xs s' n = s' n) :
    ∀ (inames : List String) (s : Table) (n : String), is_input_layer n = true →
      upls_inner g recur q true inames s n = s n := by
  intro inames
  induction inames with
  | nil => intro s n _; rfl
  | cons iname rest ih =>
    intro s n hn
    by_cases hskip : (true && is_input_layer iname) = true
    · simp only [upls_inner, hskip, if_true]
      exact ih s n hn
    · simp only [upls_inner, hskip, if_false, Bool.false_eq_true]
      have hiname : is_input_layer iname = false := by
        simpa using hskip
      have hne : n ≠ iname := fun h => by rw [h] at hn; rw [hn] at hiname; cases hiname
      have h1 : upd s iname q n = s n := upd_other s iname q n hne
      rcases hfl : findLayer g iname with _ | l
      · simp only [hfl]
        rw [ih _ n hn, h1]
      · simp only [hfl]
        by_cases hsh : is_shift_layer l = true
        · simp only [hsh, if_true]
          rw [ih _ n hn, h1]
        · simp only [hsh, if_false, Bool.false_eq_true]
          rw [ih _ n hn, hrecI _ _ _ hn, h1]

/-- With `skip_input = True`, `update_previous_layer_shift` never
writes an input-named key. -/
lemma update_skip_input (g : List Layer) (q : Int) :
    ∀ (fuel : Nat) (inames : List String) (s : Table) (n : String),
      is_input_layer n = true →
        update_previous_layer_shift g fuel inames q true s n = s n := by
  intro fuel
  induction fuel with
  | zero => intro inames s n _; rfl
  | succ fuel ih =>
    intro inames s n hn
    exact upls_inner_skip_input g _ q (fun xs s' m hm => ih xs s' m hm) inames s n hn

/-- With `skip_input = False`, `upls_inner` never writes an input-named
key that is not among the direct inputs, provided recursive calls never
write input-named keys. -/
lemma upls_inner_notmem_input (g : List Layer) (recur : List String → Table → Table)
    (q : Int)
    (hrecI : ∀ xs s' n, is_input_layer n = true → recur xs s' n = s' n) :
    ∀ (inames : List String) (s : Table) (n : String),
      is_input_layer n = true → n ∉ inames →
        upls_inner g recur q false inames s n = s n := by
  intro inames
  induction inames with
  | nil => intro s n _ _; rfl
  | cons iname rest ih =>
    intro s n hn hnm
    have hne : n ≠ iname := fun h => hnm (h ▸ List.mem_cons_self iname rest)
    have hnm' : n ∉ rest := fun h => hnm (List.mem_cons_of_mem iname h)
    have hskip : (false && is_input_layer iname) = false := by simp
    simp only [upls_inner, hskip, if_false, Bool.false_eq_true]
    have h1 : upd s iname q n = s n := upd_other s iname q n hne
    rcases hfl : findLayer g iname with _ | l
    · simp only [hfl]
      rw [ih _ n hn hnm', h1]
    · simp only [hfl]
      by_cases hsh : is_shift_layer l = true
      · simp only [hsh, if_true]
        rw [ih _ n hn hnm', h1]
      · simp only [hsh, if_false, Bool.false_eq_true]
        rw [ih _ n hn hnm', hrecI _ _ _ hn, h1]

/-- With `skip_input = False`, an input-named key that is not among the
direct inputs is still never written (descents use
`skip_input = True`). -/
lemma update_notmem_input (g : List Layer) (q : Int) :
    ∀ (fuel : Nat) (inames : List String) (s : Table) (n : String),
      is_input_layer n = true → n ∉ inames →
        update_previous_layer_shift g fuel inames q false s n = s n := by
  intro fuel
  cases fuel with
  | zero => intro inames s n _ _; rfl
  | succ fuel =>
    intro inames s n hn hnm
    exact upls_inner_notmem_input g _ q
      (fun xs s' m hm => update_skip_input g q fuel xs s' m hm) inames s n hn hnm

/-- One sweep iteration never writes an input-named key that is neither
a direct input nor the name of the iterated layer. -/
lemma stepFn_spares_input (g : List Layer) (s : Table) (l : Layer) (n : String)
    (hn : is_input_layer n = true)
    (hl2 : l.listInput = true → (n ∉ l.inputs ∧ n ≠ l.name)) :
    stepFn g s l n = s n := by
  by_cases hl : l.listInput = true
  · obtain ⟨hni, hnn⟩ := hl2 hl
    simp only [stepFn, hl, if_true]
    have h1 : update_previous_layer_shift g g.length l.inputs (qminOf s l.inputs) false s n
        = s n := update_notmem_input g _ _ _ s n hn hni
    by_cases hc : (!is_shift_layer l ||
        decide (qminOf s l.inputs <
          update_previous_layer_shift g g.length l.inputs (qminOf s l.inputs) false s l.name)) = true
    · simp only [hc, if_true]
      rw [upd_other _ _ _ n hnn, h1]
    · simp only [hc, if_false, Bool.false_eq_true]
      exact h1
  · simp only [stepFn, hl, if_false, Bool.false_eq_true]

/-! ### Helpers for the calibration and quantisation claims -/

/-- `Int.clog` at base 2 is preserved by the cast from `ℚ` to `ℝ`. -/
lemma int_clog_two_ratCast (q : ℚ) (hq : 0 < q) :
    Int.clog 2 ((q : ℝ)) = Int.clog 2 q := by
  have hb : (1 : ℕ) < 2 := by norm_num
  have hq' : (0 : ℝ) < (q : ℝ) := by exact_mod_cast hq
  apply le_antisymm
  · rw [← Int.le_zpow_iff_clog_le hb hq']
    have h := Int.self_le_zpow_clog hb q
    have h2 := (Rat.cast_le (K := ℝ)).mpr h
    rw [Rat.cast_zpow] at h2
    rw [show (((2 : ℕ) : ℚ) : ℝ) = ((2 : ℕ) : ℝ) by norm_num] at h2
    exact h2
  · rw [← Int.le_zpow_iff_clog_le hb hq]
    have h := Int.self_le_zpow_clog hb (q : ℝ)
    rw [show ((2 : ℕ) : ℝ) = (((2 : ℕ) : ℚ) : ℝ) by norm_num, ← Rat.cast_zpow] at h
    exact (Rat.cast_le (K := ℝ)).mp h

/-- simp lemma: `exceptCase` on a success. -/
@[simp] lemma exceptCase_ok {α β : Type} (a : α) (f : α → Except String β) :
    exceptCase (.ok a) f = f a := rfl

/-- simp lemma: `exceptCase` on a failure. -/
@[simp] lemma exceptCase_error {α β : Type} (e : String) (f : α → Except String β) :
    exceptCase (.error e) f = .error e := rfl

/-- `np.argmin` returns an index inside the list. -/
lemma argMinIdx_lt_length : ∀ (l : List ℚ), l ≠ [] → argMinIdx l < l.length
  | [], h => absurd rfl h
  | [_], _ => by simp [argMinIdx]
  | x :: y :: rest, _ => by
    simp only [argMinIdx]
    by_cases hx : x ≤ (y :: rest).getD (argMinIdx (y :: rest)) 0
    · simp only [hx, if_true]
      simp
    · simp only [hx, if_false]
      have := argMinIdx_lt_length (y :: rest) (by simp)
      simp only [List.length_cons] at this ⊢
      omega

/-- `np.argmin` returns an index of a minimal element. -/
lemma argMinIdx_min : ∀ (l : List ℚ) (i : ℕ), i < l.length →
    l.getD (argMinIdx l) 0 ≤ l.getD i 0
  | [], i, hi => by simp at hi
  | [x], i, hi => by
    have : i = 0 := by simpa using hi
    subst this
    simp [argMinIdx]
  | x :: y :: rest, i, hi => by
    simp only [argMinIdx]
    by_cases hx : x ≤ (y :: rest).getD (argMinIdx (y :: rest)) 0
    · simp only [hx, if_true]
      cases i with
      | zero => simp
      | succ j =>
        have hj : j < (y :: rest).length := by simpa using hi
        have h1 := argMinIdx_min (y :: rest) j hj
        calc ((x :: y :: rest).getD 0 0 : ℚ) = x := rfl
          _ ≤ (y :: rest).getD (argMinIdx (y :: rest)) 0 := hx
          _ ≤ (y :: rest).getD j 0 := h1
          _ = (x :: y :: rest).getD (j + 1) 0 := rfl
    · simp only [hx, if_false]
      cases i with
      | zero =>
        have h2 : (y :: rest).getD (argMinIdx (y :: rest)) 0 ≤ x := le_of_not_le hx
        calc ((x :: y :: rest).getD (argMinIdx (y :: rest) + 1) 0 : ℚ)
            = (y :: rest).getD (argMinIdx (y :: rest)) 0 := rfl
          _ ≤ x := h2
          _ = (x :: y :: rest).getD 0 0 := rfl
      | succ j =>
        have hj : j < (y :: rest).length := by simpa using hi
        exact argMinIdx_min (y :: rest) j hj

/-- The candidate-shift list of `dec_bits_by_kld` indexed. -/
lemma getD_range4_map (d : Int) (j : ℕ) (hj : j < 4) :
    ((List.range 4).map fun shift => d + (shift : Int)).getD j 0 = d + j := by
  interval_cases j <;> simp [List.range_succ]

/-- With calibration data available, the per-variable quantisation
decision never fails. -/
lemma var_step_some_ok (t : Table) (l : Layer) (wds : Int) (w : WVar) :
    ∃ p, var_step (some t) l wds w = .ok p := by
  simp only [var_step]
  split_ifs <;> exact ⟨_, rfl⟩

/-- With calibration data available, the variable loop never fails. -/
lemma process_vars_go_some_ok (t : Table) (l : Layer) :
    ∀ (ws : List WVar) (wds : Int), ∃ out, process_vars_go (some t) l ws wds = .ok out := by
  intro ws
  induction ws with
  | nil => intro wds; exact ⟨[], rfl⟩
  | cons w rest ih =>
    intro wds
    by_cases hskip : (!strContains w.name ("kernel") && !strContains w.name ("bias")) = true
    · simp only [process_vars_go, hskip, if_true]
      exact ih wds
    · simp only [process_vars_go, hskip, if_false, Bool.false_eq_true]
      obtain ⟨p, hp⟩ := var_step_some_ok t l wds w
      obtain ⟨out, hout⟩ := ih p.1
      rw [hp, exceptCase_ok, hout, exceptCase_ok]
      exact ⟨_, rfl⟩

/-- With calibration data available, quantising one layer never fails. -/
lemma process_vars_some_ok (t : Table) (l : Layer) :
    ∃ out, process_vars (some t) l = .ok out :=
  process_vars_go_some_ok t l l.wvars 0

/-- Every entry produced by the variable loop comes from one of the
layer's variables, with values scaled by the entry's own shift and
rounded. -/
lemma process_vars_go_out (sl : Option Table) (l : Layer) :
    ∀ (ws : List WVar) (wds : Int) (out : List (String × Int × List Int)),
      process_vars_go sl l ws wds = .ok out →
      ∀ e ∈ out, ∃ w ∈ ws, e.1 = w.name ∧
        e.2.2 = w.values.map fun v => npRound (v * (2 : ℚ) ^ e.2.1) := by
  intro ws
  induction ws with
  | nil =>
    intro wds out h e he
    simp only [process_vars_go] at h
    cases h
    simp at he
  | cons w rest ih =>
    intro wds out h e he
    by_cases hskip : (!strContains w.name ("kernel") && !strContains w.name ("bias")) = true
    · simp only [process_vars_go, hskip, if_true] at h
      obtain ⟨w', hw', h1, h2⟩ := ih wds out h e he
      exact ⟨w', List.mem_cons_of_mem w hw', h1, h2⟩
    · simp only [process_vars_go, hskip, if_false, Bool.false_eq_true] at h
      rcases hv : var_step sl l wds w with e1 | p
      · rw [hv, exceptCase_error] at h; cases h
      · rw [hv, exceptCase_ok] at h
        rcases hrest : process_vars_go sl l rest p.1 with e2 | out'
        · rw [hrest, exceptCase_error] at h; cases h
        · rw [hrest, exceptCase_ok] at h
          have hout : (w.name, p.2, emit_var p.2 w) :: out' = out := by
            injection h
          subst hout
          rcases List.mem_cons.mp he with rfl | he'
          · exact ⟨w, List.mem_cons_self w rest, rfl, rfl⟩
          · obtain ⟨w', hw', h1, h2⟩ := ih p.1 out' hrest e he'
            exact ⟨w', List.mem_cons_of_mem w hw', h1, h2⟩

/-- The first consumer of a layer is a member of the graph. -/
lemma firstConsumer_mem (g : List Layer) (l c : Layer)
    (h : firstConsumer g l = some c) : c ∈ g :=
  List.mem_of_find?_eq_some h

/-- In a graph with no batch-normalization layers, every emitted entry
of the layer loop comes from one of the listed layers' variables, with
its values scaled by the entry's shift and rounded. -/
lemma gen_go_out (fuse : Layer → Layer → List WVar) (g : List Layer) (t : Table)
    (hg : ∀ c ∈ g, strContains c.name ("batch_normalization") = false) :
    ∀ (L : List Layer) (out : List (String × Int × List Int)),
      gen_go fuse g (some t) L = .ok out →
      ∀ e ∈ out, ∃ l ∈ L, ∃ w ∈ l.wvars, e.1 = w.name ∧
        e.2.2 = w.values.map fun v => npRound (v * (2 : ℚ) ^ e.2.1) := by
  intro L
  induction L with
  | nil =>
    intro out h e he
    simp only [gen_go] at h
    cases h
    simp at he
  | cons l rest ih =>
    intro out h e he
    by_cases hemp : l.wvars.isEmpty = true
    · simp only [gen_go, hemp, if_true] at h
      obtain ⟨l', hl', hrest⟩ := ih out h e he
      exact ⟨l', List.mem_cons_of_mem l hl', hrest⟩
    · simp only [gen_go, hemp, if_false, Bool.false_eq_true] at h
      by_cases hbn : (strContains l.name ("batch_normalization") &&
          !strContains (l.inputs.headD ("")) ("conv")) = true
      · rw [if_pos hbn] at h; cases h
      · rw [if_neg hbn] at h
        have hl' : (match firstConsumer g l with
            | some c =>
              if strContains l.name ("conv") && strContains c.name ("batch_normalization")
              then { l with wvars := fuse l c } else l
            | none => l) = l := by
          rcases hfc : firstConsumer g l with _ | c
          · rfl
          · have hc : strContains c.name ("batch_normalization") = false :=
              hg c (firstConsumer_mem g l c hfc)
            simp [hc]
        rw [hl'] at h
        rcases hpv : process_vars (some t) l with e1 | out1
        · rw [hpv, exceptCase_error] at h; cases h
        · rw [hpv, exceptCase_ok] at h
          rcases hgr : gen_go fuse g (some t) rest with e2 | out2
          · rw [hgr, exceptCase_error] at h; cases h
          · rw [hgr, exceptCase_ok] at h
            have hout : out1 ++ out2 = out := by injection h
            subst hout
            rcases List.mem_append.mp he with he1 | he2
            · obtain ⟨w, hw, h1, h2⟩ := process_vars_go_out (some t) l l.wvars 0 out1 hpv e he1
              exact ⟨l, List.mem_cons_self l rest, w, hw, h1, h2⟩
            · obtain ⟨l', hl', hrest⟩ := ih out2 hgr e he2
              exact ⟨l', List.mem_cons_of_mem l hl', hrest⟩

/-- With calibration data, the layer loop fails exactly on the first
weighted batch-normalization layer whose predecessor is not a
convolution. -/
lemma gen_go_isOk (fuse : Layer → Layer → List WVar) (g : List Layer) (t : Table) :
    ∀ L : List Layer,
      (gen_go fuse g (some t) L).isOk
        = !(L.any fun l => !l.wvars.isEmpty &&
            (strContains l.name ("batch_normalization") &&
              !strContains (l.inputs.headD ("")) ("conv"))) := by
  intro L
  induction L with
  | nil => rfl
  | cons l rest ih =>
    by_cases hemp : l.wvars.isEmpty = true
    · simp only [gen_go, hemp, if_true, List.any_cons, Bool.not_true, Bool.false_and,
        Bool.false_or]
      exact ih
    · have hempf : l.wvars.isEmpty = false := by
        cases h : l.wvars.isEmpty
        · rfl
        · exact absurd h hemp
      simp only [gen_go, hemp, if_false, Bool.false_eq_true]
      by_cases hbn : (strContains l.name ("batch_normalization") &&
          !strContains (l.inputs.headD ("")) ("conv")) = true
      · have hany : ((l :: rest).any fun l2 => !l2.wvars.isEmpty &&
            (strContains l2.name ("batch_normalization") &&
              !strContains (l2.inputs.headD ("")) ("conv"))) = true := by
          rw [List.any_cons, hempf, hbn]
          rfl
        rw [if_pos hbn, hany]
        rfl
      · have hbnf : (strContains l.name ("batch_normalization") &&
            !strContains (l.inputs.headD ("")) ("conv")) = false := by
          cases h : (strContains l.name ("batch_normalization") &&
              !strContains (l.inputs.headD ("")) ("conv"))
          · rfl
          · exact absurd h hbn
        rw [if_neg hbn]
        have hany : ((l :: rest).any fun l2 => !l2.wvars.isEmpty &&
            (strContains l2.name ("batch_normalization") &&
              !strContains (l2.inputs.headD ("")) ("conv")))
            = (rest.any fun l2 => !l2.wvars.isEmpty &&
                (strContains l2.name ("batch_normalization") &&
                  !strContains (l2.inputs.headD ("")) ("conv"))) := by
          rw [List.any_cons, hbnf, Bool.and_false, Bool.false_or]
        rw [hany]
        obtain ⟨out1, hpv⟩ := process_vars_some_ok t
          (match firstConsumer g l with
            | some c =>
              if strContains l.name ("conv") && strContains c.name ("batch_normalization")
              then { l with wvars := fuse l c } else l
            | none => l)
        rw [hpv, exceptCase_ok]
        rcases hgr : gen_go fuse g (some t) rest with e2 | out2
        · rw [hgr] at ih
          rw [exceptCase_error]
          exact ih
        · rw [hgr] at ih
          rw [exceptCase_ok]
          exact ih

/-- The reconciled shift table of `cg8` at its two nodes: the input
activations reaching `±512` calibrate the input format to `-2`. -/
lemma sl8_facts : sl8 ("input_1") = -2 ∧ sl8 ("conv2d_1") = 7 := by
  have h1 : listMin [(-512 : ℚ), 512] = -512 := by norm_num [listMin]
  have h2 : listMax [(-512 : ℚ), 512] = 512 := by norm_num [listMax]
  have h3 : get_int_bits (-512) 512 = 9 := get_int_bits_eq_of _ _ 9
    (by norm_num [abs_le, lt_abs, max_le_iff, lt_max_iff])
    (by norm_num [abs_le, lt_abs, max_le_iff, lt_max_iff])
  have h4 : listMin [(1 : ℚ)] = 1 := by norm_num [listMin]
  have h5 : listMax [(1 : ℚ)] = 1 := by norm_num [listMax]
  have h6 : get_int_bits 1 1 = 0 := get_int_bits_eq_of _ _ 0
    (by norm_num [abs_le, lt_abs, max_le_iff, lt_max_iff])
    (by norm_num [abs_le, lt_abs, max_le_iff, lt_max_iff])
  constructor <;>
    simp +decide [sl8, layers_output_ranges, layers_output_ranges_sweep, procList,
      make_initial_shift_list, cg8, initial_step, stepFn, upd, h1, h2, h3, h4, h5, h6]

/-- Full quantisation run on `cg8`. -/
lemma gen8_ok : generate_weights_core fuse0 cg8 (some sl8) = .ok out8 := by
  have h4 : listMin [(4 : ℚ), -4] = -4 := by norm_num [listMin]
  have h5 : listMax [(4 : ℚ), -4] = 4 := by norm_num [listMax]
  have h6 : get_int_bits (-4) 4 = 2 := get_int_bits_eq_of _ _ 2
    (by norm_num [abs_le, lt_abs, max_le_iff, lt_max_iff])
    (by norm_num [abs_le, lt_abs, max_le_iff, lt_max_iff])
  have h7 : listMin [(8 : ℚ), -8] = -8 := by norm_num [listMin]
  have h8 : listMax [(8 : ℚ), -8] = 8 := by norm_num [listMax]
  have h9 : get_int_bits (-8) 8 = 3 := get_int_bits_eq_of _ _ 3
    (by norm_num [abs_le, lt_abs, max_le_iff, lt_max_iff])
    (by norm_num [abs_le, lt_abs, max_le_iff, lt_max_iff])
  have hin : sl8 ("input_1") = -2 := sl8_facts.1
  have np1 : npRound ((4 : ℚ) * (2 : ℚ) ^ (5 : Int)) = 128 := by norm_num [npRound]
  have np2 : npRound (-((4 : ℚ) * (2 : ℚ) ^ (5 : Int))) = -128 := by norm_num [npRound]
  have np3 : npRound ((8 : ℚ) * (2 : ℚ) ^ (4 : Int)) = 128 := by norm_num [npRound]
  have np4 : npRound (-((8 : ℚ) * (2 : ℚ) ^ (4 : Int))) = -128 := by norm_num [npRound]
  simp +decide [generate_weights_core, gen_go, process_vars, process_vars_go, var_step,
    exceptCase, emit_var, firstConsumer, cg8, out8, hin,
    h4, h5, h6, h7, h8, h9, np1, np2, np3, np4]

/-- The reconciled input format of `cg9` is 7 (activations in `±1`). -/
lemma sl9_input : sl9 ("input_1") = 7 := by
  have h1 : listMin [(-1 : ℚ), 1] = -1 := by norm_num [listMin]
  have h2 : listMax [(-1 : ℚ), 1] = 1 := by norm_num [listMax]
  have h3 : get_int_bits (-1) 1 = 0 := get_int_bits_eq_of _ _ 0
    (by norm_num [abs_le, lt_abs, max_le_iff, lt_max_iff])
    (by norm_num [abs_le, lt_abs, max_le_iff, lt_max_iff])
  have h4 : listMin [(1 / 2 : ℚ)] = 1 / 2 := by norm_num [listMin]
  have h5 : listMax [(1 / 2 : ℚ)] = 1 / 2 := by norm_num [listMax]
  have h6 : get_int_bits (1 / 2) (1 / 2) = -1 := get_int_bits_eq_of _ _ (-1)
    (by norm_num [abs_le, lt_abs, max_le_iff, lt_max_iff])
    (by norm_num [abs_le, lt_abs, max_le_iff, lt_max_iff])
  simp +decide [sl9, layers_output_ranges, layers_output_ranges_sweep, procList,
    make_initial_shift_list, cg9, initial_step, stepFn, upd, h1, h2, h3, h4, h5, h6]

/-- Full quantisation run on `cg9`: the kernel value 2 quantises to
128, outside the signed 8-bit range, and is emitted as-is. -/
lemma gen9_ok : generate_weights_core fuse0 cg9 (some sl9) = .ok out9 := by
  have h6 : listMin [(2 : ℚ)] = 2 := by norm_num [listMin]
  have h6' : listMax [(2 : ℚ)] = 2 := by norm_num [listMax]
  have h7 : get_int_bits 2 2 = 1 := get_int_bits_eq_of _ _ 1
    (by norm_num [abs_le, lt_abs, max_le_iff, lt_max_iff])
    (by norm_num [abs_le, lt_abs, max_le_iff, lt_max_iff])
  have h8 : listMin [(3 / 4 : ℚ)] = 3 / 4 := by norm_num [listMin]
  have h8' : listMax [(3 / 4 : ℚ)] = 3 / 4 := by norm_num [listMax]
  have h9 : get_int_bits (3 / 4) (3 / 4) = 0 := get_int_bits_eq_of _ _ 0
    (by norm_num [abs_le, lt_abs, max_le_iff, lt_max_iff])
    (by norm_num [abs_le, lt_abs, max_le_iff, lt_max_iff])
  have hin : sl9 ("input_1") = 7 := sl9_input
  have np1 : npRound ((2 : ℚ) * (2 : ℚ) ^ (6 : Int)) = 128 := by norm_num [npRound]
  have np2 : npRound ((3 / 4 : ℚ) * (2 : ℚ) ^ (7 : Int)) = 96 := by norm_num [npRound]
  simp +decide [generate_weights_core, gen_go, process_vars, process_vars_go, var_step,
    exceptCase, emit_var, firstConsumer, cg9, out9, hin,
    h6, h6', h7, h8, h8', h9, np1, np2]

/-! ### Claims C1 to C5: the backward reconciliation sweep -/

/-- Claim C1 is false as stated: in `cgA` the merge layers `add_1` and
`add_2` share the ancestor `conv2d_1`; `add_2` is processed first and
equalises its predecessors at 5, then `add_1` lowers the shared ancestor
`conv2d_1` to 3, leaving the direct predecessors of the
add/subtract/multiply node `add_2` with different final formats
(3 versus 5). -/
theorem C1_counterexample :
    (∃ l ∈ cgA, l.name = ("add_2") ∧ strContains l.name ("add") = true ∧
      l.listInput = true ∧ l.inputs = [("conv2d_1"), ("conv2d_2")]) ∧
    layers_output_ranges_sweep cgA csA ("conv2d_1") = 3 ∧
    layers_output_ranges_sweep cgA csA ("conv2d_2") = 5 := by
  decide

/-- Claim C1 (amended): after the backward sweep, every
multi-input node whose direct predecessors are not written by any
later-processed sweep iteration has all its direct predecessors assigned
one common value.  (The unamended claim fails exactly when a
later-processed merge writes into a shared ancestor.) -/
theorem C1_amended (g : List Layer) (s : Table) (L₁ L₂ : List Layer) (m : Layer)
    (hL : procList g = L₁ ++ m :: L₂)
    (hm : m.listInput = true)
    (hdisj : ∀ l ∈ L₂, ∀ x ∈ m.inputs, x ∉ stepWrites g l) :
    ∀ a ∈ m.inputs, ∀ b ∈ m.inputs,
      layers_output_ranges_sweep g s a = layers_output_ranges_sweep g s b := by
  have hgne : g ≠ [] := by
    intro h
    rw [h] at hL
    have hlen := congrArg List.length hL
    simp [procList] at hlen
    omega
  obtain ⟨k, hk⟩ : ∃ k, g.length = k + 1 := by
    have hpos : 0 < g.length := List.length_pos.mpr hgne
    exact ⟨g.length - 1, by omega⟩
  have key : ∀ a ∈ m.inputs, layers_output_ranges_sweep g s a
      = qminOf (L₁.foldl (stepFn g) s) m.inputs := by
    intro a ha
    have hws : a ∈ writeSet g g.length m.inputs false := by
      rw [hk]; exact mem_writeSet_self g k m.inputs a ha
    show (procList g).foldl (stepFn g) s a = _
    rw [hL, List.foldl_append, List.foldl_cons]
    rw [fold_frame g L₂ _ a (fun l hl => hdisj l hl a ha)]
    exact stepFn_writeSet g _ m a hm hws
  intro a ha b hb
  rw [key a ha, key b hb]

/-- Claim C1 witness: in the single-merge graph `cgB`, the two direct
predecessors of `add_1` agree after the sweep. -/
theorem C1_amended_witness :
    layers_output_ranges_sweep cgB csB ("max_pooling2d_1") =
      layers_output_ranges_sweep cgB csB ("conv2d_2") :=
  C1_amended cgB csB []
    [{ name := ("max_pooling2d_1"), inputs := [("conv2d_1")] },
     { name := ("conv2d_2"), inputs := [("input_1")] },
     { name := ("conv2d_1"), inputs := [("input_1")] }]
    { name := ("add_1"), inputs := [("max_pooling2d_1"), ("conv2d_2")], listInput := true }
    (by decide) (by decide) (by decide)
    ("max_pooling2d_1") (by decide) ("conv2d_2") (by decide)

/-- Claim C2: one reconciliation step of a multi-input node computes
`Qmin` as the minimum over the node's direct inputs' recorded formats
(a lower bound attained at some input), assigns exactly `Qmin`
throughout the recursively pushed region `writeSet` (which descends
through non-shift predecessors and stops at shift-layer ones), and
leaves every key outside the written region unchanged; concretely, in `cgB`
the branches calibrated to 5 (conv2d_1, behind a pass-through pooling
layer) and 3 (conv2d_2) both end at format 3, with the input layer
untouched. -/
theorem C2_confirmed :
    (∀ (g : List Layer) (s : Table) (m : Layer), m.listInput = true → m.inputs ≠ [] →
      ((∀ i ∈ m.inputs, qminOf s m.inputs ≤ s i) ∧
       (∃ i ∈ m.inputs, qminOf s m.inputs = s i) ∧
       (∀ n ∈ writeSet g g.length m.inputs false, stepFn g s m n = qminOf s m.inputs) ∧
       (∀ n, n ∉ stepWrites g m → stepFn g s m n = s n))) ∧
    (layers_output_ranges_sweep cgB csB ("conv2d_1") = 3 ∧
     layers_output_ranges_sweep cgB csB ("max_pooling2d_1") = 3 ∧
     layers_output_ranges_sweep cgB csB ("conv2d_2") = 3 ∧
     layers_output_ranges_sweep cgB csB ("add_1") = 3 ∧
     layers_output_ranges_sweep cgB csB ("input_1") = 7) := by
  constructor
  · intro g s m hm hne
    exact ⟨qminOf_le s m.inputs, qminOf_mem s m.inputs hne,
      fun n hn => stepFn_writeSet g s m n hm hn,
      fun n hn => stepFn_frame g s m n hn⟩
  · exact ⟨by decide, by decide, by decide, by decide, by decide⟩

/-- Claim C2 witness: the general step property applied to the `add_1`
layer of `cgB` on the calibrated table. -/
theorem C2_confirmed_witness :
    qminOf csB [("max_pooling2d_1"), ("conv2d_2")] ≤ csB ("conv2d_2") :=
  (C2_confirmed.1 cgB csB
    { name := ("add_1"), inputs := [("max_pooling2d_1"), ("conv2d_2")], listInput := true }
    (by decide) (by decide)).1 ("conv2d_2") (by decide)

/-- Claim C3 is false as stated: in `cgC` the format-fixed layer
`sigmoid_1` (calibrated to 7) is a direct predecessor of `add_1`; the
sweep overwrites its entry with the merge target 3. -/
theorem C3_counterexample :
    (∃ l ∈ cgC, l.name = ("sigmoid_1") ∧ is_shift_fixed l = true) ∧
    csC ("sigmoid_1") = 7 ∧
    layers_output_ranges_sweep cgC csC ("sigmoid_1") = 3 := by
  decide

/-- Claim C3 (amended): a format-fixed node is a shift layer, so the
backward sweep never recurses through it — the written region stops at
such a node (its own predecessors are not written on its account) — but
its own entry is overwritten like any other predecessor of a merge
node; concretely in `cgC` the sweep sets `sigmoid_1` to 3 while its
upstream convolution `conv2d_2` keeps its calibrated 5. -/
theorem C3_amended :
    (∀ l : Layer, is_shift_fixed l = true → is_shift_layer l = true) ∧
    (∀ (g : List Layer) (recurW : List String → List String) (iname : String)
        (rest : List String) (l : Layer),
      findLayer g iname = some l → is_shift_layer l = true →
        writeSet_inner g recurW false (iname :: rest)
          = iname :: writeSet_inner g recurW false rest) ∧
    (layers_output_ranges_sweep cgC csC ("sigmoid_1") = 3 ∧
     layers_output_ranges_sweep cgC csC ("conv2d_2") = 5) := by
  refine ⟨?_, ?_, by decide, by decide⟩
  · intro l h
    simp only [is_shift_fixed, Bool.or_eq_true, Bool.and_eq_true] at h
    simp only [is_shift_layer, Bool.or_eq_true, Bool.and_eq_true]
    tauto
  · intro g recurW iname rest l hfl hsh
    simp [writeSet_inner, hfl, hsh]

/-- Claim C3 witness: the sigmoid layer of `cgC` is format-fixed, hence
a shift layer, and the stop property instantiated at it. -/
theorem C3_amended_witness :
    is_shift_layer { name := ("sigmoid_1"), inputs := [("conv2d_2")] } = true ∧
    writeSet_inner cgC (fun _ => []) false [("sigmoid_1"), ("conv2d_1")]
      = ("sigmoid_1") :: writeSet_inner cgC (fun _ => []) false [("conv2d_1")] :=
  ⟨C3_amended.1 _ (by decide),
   C3_amended.2.1 cgC (fun _ => []) ("sigmoid_1") [("conv2d_1")]
     { name := ("sigmoid_1"), inputs := [("conv2d_2")] } (by decide) (by decide)⟩

/-- Claim C4 is false as stated: in `cgD` the graph input `input_1`
(calibrated to 7) is a direct predecessor of `add_1`, and the top-level
push runs with `skip_input=False`, so the sweep rewrites the input's
entry to the merge target 3. -/
theorem C4_counterexample :
    is_input_layer ("input_1") = true ∧
    (∃ l ∈ cgD, l.listInput = true ∧ ("input_1") ∈ l.inputs) ∧
    csD ("input_1") = 7 ∧
    layers_output_ranges_sweep cgD csD ("input_1") = 3 := by
  decide

/-- Claim C4 (amended): the recursive part of the push
(`skip_input=True`, the Python default used by every recursive call)
never writes an input-named key, so an input node's entry survives the
whole sweep unchanged unless the input is a direct predecessor (or the
name) of a multi-input layer — direct predecessors are pushed with
`skip_input=False` and are overwritten, as the counterexample shows. -/
theorem C4_amended :
    (∀ (g : List Layer) (fuel : Nat) (inames : List String) (q : Int) (s : Table) (n : String),
      is_input_layer n = true →
        update_previous_layer_shift g fuel inames q true s n = s n) ∧
    (∀ (g : List Layer) (s : Table) (n : String),
      is_input_layer n = true →
      (∀ l ∈ procList g, l.listInput = true → (n ∉ l.inputs ∧ n ≠ l.name)) →
        layers_output_ranges_sweep g s n = s n) := by
  constructor
  · exact fun g fuel inames q s n hn => update_skip_input g q fuel inames s n hn
  · intro g s n hn hall
    show (procList g).foldl (stepFn g) s n = s n
    have main : ∀ (L : List Layer) (s0 : Table),
        (∀ l ∈ L, l.listInput = true → (n ∉ l.inputs ∧ n ≠ l.name)) →
          L.foldl (stepFn g) s0 n = s0 n := by
      intro L
      induction L with
      | nil => intro s0 _; rfl
      | cons l L ih =>
        intro s0 h
        simp only [List.foldl_cons]
        rw [ih _ (fun b hb => h b (List.mem_cons_of_mem l hb))]
        exact stepFn_spares_input g s0 l n hn (h l (List.mem_cons_self l L))
    exact main _ s hall

/-- Claim C4 witness: in `cgB` the graph input feeds no merge node
directly, and its entry survives the sweep. -/
theorem C4_amended_witness :
    layers_output_ranges_sweep cgB csB ("input_1") = csB ("input_1") :=
  C4_amended.2 cgB csB ("input_1") (by decide) (by decide)

/-- Claim C5 is false as stated: in `cgA` (two merges sharing the
ancestor `conv2d_1`) the first sweep leaves `conv2d_2` at 5, but a
second sweep over the already-reconciled table lowers it to 3 — the
sweep is not idempotent. -/
theorem C5_counterexample :
    layers_output_ranges_sweep cgA csA ("conv2d_2") = 5 ∧
    layers_output_ranges_sweep cgA (layers_output_ranges_sweep cgA csA) ("conv2d_2") = 3 := by
  constructor
  · decide
  · decide

/-- Claim C5 (amended): the backward sweep is idempotent on every graph
whose sweep iterations have pairwise disjoint write sets (in particular
whenever no two merge nodes share an ancestor), multi-input layers
having at least one input.  The unamended claim fails exactly on
overlapping write sets, as the counterexample shows. -/
theorem C5_amended (g : List Layer) (s : Table)
    (hp : pairwiseDisj g)
    (hne : ∀ l ∈ procList g, l.listInput = true → l.inputs ≠ []) :
    ∀ n, layers_output_ranges_sweep g (layers_output_ranges_sweep g s) n
      = layers_output_ranges_sweep g s n := by
  intro n
  by_cases hex : ∃ m ∈ procList g, n ∈ stepWrites g m
  case neg =>
    push_neg at hex
    exact fold_frame g _ _ n hex
  case pos =>
    obtain ⟨m, hmL, hn⟩ := hex
    have hgne : g ≠ [] := by
      intro h; rw [h] at hmL; simp [procList] at hmL
    have hml : m.listInput = true := by
      by_cases h : m.listInput = true
      · exact h
      · simp [stepWrites, h] at hn
    have hin : m.inputs ≠ [] := hne m hmL hml
    obtain ⟨k, hk⟩ : ∃ k, g.length = k + 1 := by
      have hpos : 0 < g.length := List.length_pos.mpr hgne
      exact ⟨g.length - 1, by omega⟩
    have loc1 : ∀ x ∈ stepWrites g m,
        layers_output_ranges_sweep g s x = stepFn g s m x := by
      intro x hx
      exact sweep_localize g hgne (procList g) hp m hmL x hx s
    have loc2 : layers_output_ranges_sweep g (layers_output_ranges_sweep g s) n
        = stepFn g (layers_output_ranges_sweep g s) m n :=
      sweep_localize g hgne (procList g) hp m hmL n hn (layers_output_ranges_sweep g s)
    have hsubW : ∀ i ∈ m.inputs, i ∈ writeSet g g.length m.inputs false := by
      intro i hi; rw [hk]; exact mem_writeSet_self g k m.inputs i hi
    have hsubS : ∀ i ∈ m.inputs, i ∈ stepWrites g m := by
      intro i hi
      simp only [stepWrites, hml, if_true, List.mem_cons]
      right; exact hsubW i hi
    have hT1in : ∀ i ∈ m.inputs, layers_output_ranges_sweep g s i = qminOf s m.inputs := by
      intro i hi
      rw [loc1 i (hsubS i hi)]
      exact stepFn_writeSet g s m i hml (hsubW i hi)
    have hq' : qminOf (layers_output_ranges_sweep g s) m.inputs = qminOf s m.inputs :=
      qminOf_const _ m.inputs _ hin hT1in
    rw [loc2]
    by_cases hws : n ∈ writeSet g g.length m.inputs false
    · have hT1n : layers_output_ranges_sweep g s n = qminOf s m.inputs := by
        rw [loc1 n hn]
        exact stepFn_writeSet g s m n hml hws
      rw [stepFn_writeSet g _ m n hml hws, hq', hT1n]
    · have hname : n = m.name := by
        simp only [stepWrites, hml, if_true, List.mem_cons] at hn
        tauto
      subst hname
      have hT1name : layers_output_ranges_sweep g s m.name = stepFn g s m m.name :=
        loc1 _ hn
      have hv : stepFn g s m m.name
          = if (!is_shift_layer m || decide (qminOf s m.inputs < s m.name)) = true
            then qminOf s m.inputs else s m.name :=
        stepFn_name_notin g s m hml hws
      have hstep2 : stepFn g (layers_output_ranges_sweep g s) m m.name
          = if (!is_shift_layer m ||
              decide (qminOf s m.inputs < layers_output_ranges_sweep g s m.name)) = true
            then qminOf s m.inputs else layers_output_ranges_sweep g s m.name := by
        rw [stepFn_name_notin g _ m hml hws, hq']
      rw [hstep2]
      by_cases hsh : is_shift_layer m = true
      · have hnot : (!is_shift_layer m) = false := by rw [hsh]; rfl
        by_cases hlt : qminOf s m.inputs < layers_output_ranges_sweep g s m.name
        · exfalso
          rw [hT1name, hv] at hlt
          by_cases hc : (!is_shift_layer m || decide (qminOf s m.inputs < s m.name)) = true
          · rw [if_pos hc] at hlt
            exact lt_irrefl _ hlt
          · rw [if_neg hc] at hlt
            apply hc
            rw [hnot]
            simpa using hlt
        · have hcond : (!is_shift_layer m ||
              decide (qminOf s m.inputs < layers_output_ranges_sweep g s m.name)) = false := by
            rw [hnot]
            simpa using hlt
          rw [hcond]
          simp
      · have hnot : (!is_shift_layer m) = true := by
          cases h : is_shift_layer m
          · rfl
          · exact absurd h hsh
        have hcond : (!is_shift_layer m ||
            decide (qminOf s m.inputs < layers_output_ranges_sweep g s m.name)) = true := by
          rw [hnot]; rfl
        rw [if_pos hcond, hT1name, hv, if_pos (by rw [hnot]; rfl)]

/-- Claim C5 witness: idempotence on the single-merge graph `cgB`. -/
theorem C5_amended_witness :
    layers_output_ranges_sweep cgB (layers_output_ranges_sweep cgB csB) ("conv2d_1")
      = layers_output_ranges_sweep cgB csB ("conv2d_1") :=
  C5_amended cgB csB (by decide) (by decide) ("conv2d_1")

/-! ### Claims C6 to C10: calibration and quantisation -/

/-- Claim C6: the derived format satisfies
`fractional_bits = 7 - ceil(log2(max(|min|, |max|, ε)))` with
`ε = 1e-10` — the code's `7 - get_int_bits` agrees with the real-valued
ceiling-logarithm formula on every range — and in particular the range
`(-1, 1)` yields 7 fractional bits and `(-2, 1.9)` yields 6. -/
theorem C6_confirmed :
    7 - get_int_bits (-1) 1 = 7 ∧ 7 - get_int_bits (-2) (19 / 10) = 6 ∧
    (∀ mn mx : ℚ, 7 - get_int_bits mn mx
      = 7 - ⌈Real.logb 2 (max |((mn : ℝ))| (max |((mx : ℝ))| (1 / 10000000000)))⌉) := by
  refine ⟨?_, ?_, ?_⟩
  · rw [get_int_bits_eq_of _ _ 0
      (by norm_num [abs_le, lt_abs, max_le_iff, lt_max_iff])
      (by norm_num [abs_le, lt_abs, max_le_iff, lt_max_iff])]
    norm_num
  · rw [get_int_bits_eq_of _ _ 1
      (by norm_num [abs_le, lt_abs, max_le_iff, lt_max_iff])
      (by norm_num [abs_le, lt_abs, max_le_iff, lt_max_iff])]
    norm_num
  · intro mn mx
    have hM : (0 : ℚ) < max |mn| (max |mx| (1 / 10000000000)) := by positivity
    have hMR : (0 : ℝ) ≤ ((max |mn| (max |mx| (1 / 10000000000)) : ℚ) : ℝ) := by positivity
    have hceil := Real.ceil_logb_natCast (b := 2) hMR
    rw [int_clog_two_ratCast _ hM] at hceil
    have hcast : ((max |mn| (max |mx| (1 / 10000000000)) : ℚ) : ℝ)
        = max |((mn : ℝ))| (max |((mx : ℝ))| (1 / 10000000000)) := by
      push_cast
      norm_num
    rw [hcast] at hceil
    rw [show ((2 : ℕ) : ℝ) = (2 : ℝ) by norm_num] at hceil
    unfold get_int_bits
    rw [← hceil]

/-- Claim C7 is false as stated: a dense layer is neither format-fixed
nor an input, so the claim includes it in the KLD refinement, but the
source's gate additionally excludes layers whose name contains
`dense`; with the kld method selected and a refinement that changes
every shift it touches, the dense layer's recorded shift stays at its
min/max value 7 while the convolution's is refined to 6. -/
theorem C7_counterexample :
    is_shift_fixed denseLayer = false ∧
    is_input_layer denseLayer.name = false ∧
    kld_gate_claim ("kld") denseLayer = true ∧
    kld_gate ("kld") denseLayer = false ∧
    make_initial_shift_list cg7 ("kld") (fun _ _ d => d - 1) ("dense_1") = 7 ∧
    make_initial_shift_list cg7 ("kld") (fun _ _ d => d - 1) ("conv2d_1") = 6 := by
  have h1 : listMin [(-1 : ℚ), 1] = -1 := by norm_num [listMin]
  have h2 : listMax [(-1 : ℚ), 1] = 1 := by norm_num [listMax]
  have h3 : get_int_bits (-1) 1 = 0 := get_int_bits_eq_of _ _ 0
    (by norm_num [abs_le, lt_abs, max_le_iff, lt_max_iff])
    (by norm_num [abs_le, lt_abs, max_le_iff, lt_max_iff])
  refine ⟨by decide, by decide, by decide, by decide, ?_, ?_⟩ <;>
    simp +decide [make_initial_shift_list, cg7, initial_step, upd, h1, h2, h3]

/-- Claim C7 (amended): the KLD gate equals the claim's gate
(non-format-fixed, non-input) strengthened by the exclusion of dense
layers; `dec_bits_by_kld` returns `base + argmin` over exactly the four
candidate losses for shifts `base .. base+3`, the argmin index being a
position of a minimal loss; and the calibration loop records, for each
layer, the refined shift exactly when the gate holds and the min/max
shift otherwise. -/
theorem C7_amended :
    (∀ (qm : String) (l : Layer),
      kld_gate qm l = (kld_gate_claim qm l && !strContains l.name ("dense"))) ∧
    (∀ (entropy : List ℚ → List ℚ → ℚ) (features : List ℚ) (d : Int),
      dec_bits_by_kld entropy features d
        = d + (argMinIdx (kldLosses entropy features d) : Int) ∧
      argMinIdx (kldLosses entropy features d) < 4 ∧
      ∀ i : ℕ, i < 4 →
        (kldLosses entropy features d).getD (argMinIdx (kldLosses entropy features d)) 0
          ≤ (kldLosses entropy features d).getD i 0) ∧
    (∀ (qm : String) (refine : Layer → List ℚ → Int → Int) (st : InitState) (l : Layer),
      (initial_step qm refine st l).tbl l.name
        = (if kld_gate qm l
           then refine l (if is_input_layer l.name || is_shift_layer l ||
                  strContains l.name ("batch_normalization") then l.feats else st.feats)
                  (7 - get_int_bits
                    (listMin (if is_input_layer l.name || is_shift_layer l ||
                      strContains l.name ("batch_normalization") then l.feats else st.feats))
                    (listMax (if is_input_layer l.name || is_shift_layer l ||
                      strContains l.name ("batch_normalization") then l.feats else st.feats)))
           else 7 - get_int_bits
                  (listMin (if is_input_layer l.name || is_shift_layer l ||
                    strContains l.name ("batch_normalization") then l.feats else st.feats))
                  (listMax (if is_input_layer l.name || is_shift_layer l ||
                    strContains l.name ("batch_normalization") then l.feats else st.feats)))) := by
  refine ⟨fun qm l => rfl, ?_, ?_⟩
  · intro entropy features d
    have hlen : (kldLosses entropy features d).length = 4 := by
      simp only [kldLosses, List.length_map]
      rfl
    have hne : kldLosses entropy features d ≠ [] := by
      intro h; rw [h] at hlen; simp at hlen
    have hj : argMinIdx (kldLosses entropy features d) < 4 := by
      have h := argMinIdx_lt_length _ hne
      rw [hlen] at h
      exact h
    refine ⟨?_, hj, ?_⟩
    · simp only [dec_bits_by_kld]
      exact getD_range4_map d _ hj
    · intro i hi
      exact argMinIdx_min _ i (by rw [hlen]; exact hi)
  · intro qm refine st l
    simp only [initial_step]
    by_cases hbn : strContains l.name ("batch_normalization") = true
    · simp only [hbn, if_true]
      by_cases heq : l.name = st.lastName
      · simp [upd, heq]
      · simp [upd, heq]
    · simp [hbn, upd]

/-- Claim C7 witness: the gate equivalence and the argmin property of
`dec_bits_by_kld` instantiated at a constant relative-entropy function
and base shift 5. -/
theorem C7_amended_witness :
    kld_gate ("kld") denseLayer
      = (kld_gate_claim ("kld") denseLayer && !strContains denseLayer.name ("dense")) ∧
    dec_bits_by_kld (fun _ _ => 0) [1] 5
      = 5 + (argMinIdx (kldLosses (fun _ _ => 0) [1] 5) : Int) :=
  ⟨C7_amended.1 ("kld") denseLayer, (C7_amended.2.1 (fun _ _ => 0) [1] 5).1⟩

/-- Claim C8 is false as stated: in `cg8` the input format calibrates
to `-2`, the kernel shift is 5 and the bias's own shift is 4, so the
alignment `-2 + 5 - 4 = -1` is negative; the claim then demands the
bias be quantised at the kernel's shift 5, but the code only clamps
when the bias shift exceeds the kernel shift, and the emitted bias
shift is the bias's own 4. -/
theorem C8_counterexample :
    sl8 ("input_1") = -2 ∧
    sl8 ("input_1") + 5 - 4 < 0 ∧
    generate_weights_core fuse0 cg8 (some sl8) = .ok out8 ∧
    emitted out8 ("conv2d_1/kernel:0") = some (5, [128, -128]) ∧
    emitted out8 ("conv2d_1/bias:0") = some (4, [128, -128]) ∧
    (4 : Int) ≠ 5 := by
  refine ⟨sl8_facts.1, ?_, gen8_ok, by decide, by decide, by decide⟩
  rw [sl8_facts.1]
  decide

/-- Claim C8 (amended): with calibration data, for a shift layer whose
weights are a kernel followed by a bias, the kernel is quantised at its
own min/max shift `wdec`, and the bias at
`bias_dec_amended enc wdec bown`: its own shift `bown` unless the
alignment `enc + wdec - bown` is negative AND `bown` exceeds `wdec`, in
which case the kernel's shift is reused.  (The claim as stated omits
the second condition, which matters exactly when the input encoding is
negative.) -/
theorem C8_amended (t : Table) (l : Layer) (kname bname : String) (kvals bvals : List ℚ)
    (hw : l.wvars = [{ name := kname, values := kvals }, { name := bname, values := bvals }])
    (hk : strContains kname ("kernel") = true)
    (hbk : strContains bname ("kernel") = false)
    (hbb : strContains bname ("bias") = true)
    (hsl : is_shift_layer l = true) :
    process_vars (some t) l = .ok
      [(kname, 7 - get_int_bits (listMin kvals) (listMax kvals),
        emit_var (7 - get_int_bits (listMin kvals) (listMax kvals))
          { name := kname, values := kvals }),
       (bname,
        bias_dec_amended (t (l.inputs.headD ("")))
          (7 - get_int_bits (listMin kvals) (listMax kvals))
          (7 - get_int_bits (listMin bvals) (listMax bvals)),
        emit_var
          (bias_dec_amended (t (l.inputs.headD ("")))
            (7 - get_int_bits (listMin kvals) (listMax kvals))
            (7 - get_int_bits (listMin bvals) (listMax bvals)))
          { name := bname, values := bvals })] := by
  have hskip1 : (!strContains kname ("kernel") && !strContains kname ("bias")) = false := by
    rw [hk]; rfl
  have hskip2 : (!strContains bname ("kernel") && !strContains bname ("bias")) = false := by
    rw [hbk, hbb]; rfl
  have e1 : var_step (some t) l 0 { name := kname, values := kvals }
      = .ok (7 - get_int_bits (listMin kvals) (listMax kvals),
             7 - get_int_bits (listMin kvals) (listMax kvals)) := by
    simp only [var_step, hsl, if_true, hk]
  have e2 : var_step (some t) l (7 - get_int_bits (listMin kvals) (listMax kvals))
      { name := bname, values := bvals }
      = .ok (7 - get_int_bits (listMin kvals) (listMax kvals),
             bias_dec_amended (t (l.inputs.headD ("")))
               (7 - get_int_bits (listMin kvals) (listMax kvals))
               (7 - get_int_bits (listMin bvals) (listMax bvals))) := by
    simp only [var_step, hsl, if_true, hbk, Bool.false_eq_true, if_false,
      bias_dec_amended, gt_iff_lt]
    by_cases hneg : t (l.inputs.headD ("")) + (7 - get_int_bits (listMin kvals) (listMax kvals))
        - (7 - get_int_bits (listMin bvals) (listMax bvals)) < 0
    · by_cases hgt : 7 - get_int_bits (listMin kvals) (listMax kvals)
          < 7 - get_int_bits (listMin bvals) (listMax bvals)
      · have hconj : t (l.inputs.headD ("")) +
            (7 - get_int_bits (listMin kvals) (listMax kvals))
            - (7 - get_int_bits (listMin bvals) (listMax bvals)) < 0 ∧
            7 - get_int_bits (listMin kvals) (listMax kvals)
              < 7 - get_int_bits (listMin bvals) (listMax bvals) := ⟨hneg, hgt⟩
        rw [if_pos hneg, if_pos hgt, if_pos hconj]
      · have hconj : ¬(t (l.inputs.headD ("")) +
            (7 - get_int_bits (listMin kvals) (listMax kvals))
            - (7 - get_int_bits (listMin bvals) (listMax bvals)) < 0 ∧
            7 - get_int_bits (listMin kvals) (listMax kvals)
              < 7 - get_int_bits (listMin bvals) (listMax bvals)) := fun hc => hgt hc.2
        rw [if_pos hneg, if_neg hgt, if_neg hconj]
    · have hconj : ¬(t (l.inputs.headD ("")) +
          (7 - get_int_bits (listMin kvals) (listMax kvals))
          - (7 - get_int_bits (listMin bvals) (listMax bvals)) < 0 ∧
          7 - get_int_bits (listMin kvals) (listMax kvals)
            < 7 - get_int_bits (listMin bvals) (listMax bvals)) := fun hc => hneg hc.1
      rw [if_neg hneg, if_neg hconj]
  show process_vars_go (some t) l l.wvars 0 = _
  rw [hw]
  simp only [process_vars_go, hskip1, hskip2, Bool.false_eq_true, if_false, e1,
    exceptCase_ok]
  simp only [e2, exceptCase_ok]

/-- Claim C8 witness: the amended rule instantiated on the `cg8`
convolution layer. -/
theorem C8_amended_witness :
    process_vars (some sl8)
      { name := ("conv2d_1"), inputs := [("input_1")], feats := [1],
        wvars := [{ name := ("conv2d_1/kernel:0"), values := [4, -4] },
                  { name := ("conv2d_1/bias:0"), values := [8, -8] }] }
      = .ok
      [(("conv2d_1/kernel:0"), 7 - get_int_bits (listMin [4, -4]) (listMax [4, -4]),
        emit_var (7 - get_int_bits (listMin [4, -4]) (listMax [4, -4]))
          { name := ("conv2d_1/kernel:0"), values := [4, -4] }),
       (("conv2d_1/bias:0"),
        bias_dec_amended (sl8 ("input_1"))
          (7 - get_int_bits (listMin [4, -4]) (listMax [4, -4]))
          (7 - get_int_bits (listMin [8, -8]) (listMax [8, -8])),
        emit_var
          (bias_dec_amended (sl8 ("input_1"))
            (7 - get_int_bits (listMin [4, -4]) (listMax [4, -4]))
            (7 - get_int_bits (listMin [8, -8]) (listMax [8, -8])))
          { name := ("conv2d_1/bias:0"), values := [8, -8] })] :=
  C8_amended sl8 _ ("conv2d_1/kernel:0") ("conv2d_1/bias:0") [4, -4] [8, -8]
    rfl (by decide) (by decide) (by decide) (by decide)

/-- Claim C9 is false as stated: on `cg9` the quantiser scales the
kernel value 2 by `2^6` and rounds it to 128, which lies outside
`[-128, 127]`, yet the run succeeds and the value is emitted unchanged —
there is no error, warning, wrap, or saturation anywhere in the
quantisation path. -/
theorem C9_counterexample :
    generate_weights_core fuse0 cg9 (some sl9) = .ok out9 ∧
    emitted out9 ("conv2d_1/kernel:0") = some (6, [128]) ∧
    ¬((128 : Int) ≤ 127) ∧
    (generate_weights_core fuse0 cg9 (some sl9)).isOk = true := by
  refine ⟨gen9_ok, by decide, by decide, ?_⟩
  rw [gen9_ok]
  rfl

/-- Claim C9 (amended): every tensor value is scaled by
`2^fractional_bits` and rounded to the nearest integer (ties to even),
and the resulting integers are emitted exactly as computed — on any
batch-normalization-free graph every emitted entry is the elementwise
rounding of one of the layer variables' scaled values, with no range
check: out-of-range values such as 128 are emitted silently on a
successful run. -/
theorem C9_amended :
    (∀ (fuse : Layer → Layer → List WVar) (g : List Layer) (t : Table)
        (out : List (String × Int × List Int)),
      (∀ c ∈ g, strContains c.name ("batch_normalization") = false) →
      generate_weights_core fuse g (some t) = .ok out →
      ∀ e ∈ out, ∃ l ∈ g, ∃ w ∈ l.wvars, e.1 = w.name ∧
        e.2.2 = w.values.map fun v => npRound (v * (2 : ℚ) ^ e.2.1)) ∧
    (generate_weights_core fuse0 cg9 (some sl9) = .ok out9 ∧
     (("conv2d_1/kernel:0"), (6 : Int), ([128] : List Int)) ∈ out9 ∧
     ¬((128 : Int) ≤ 127)) := by
  refine ⟨?_, gen9_ok, by decide, by decide⟩
  intro fuse g t out hg hok
  exact gen_go_out fuse g t hg g out hok

/-- Claim C9 witness: the extraction property applied to the kernel
entry of the `cg9` run. -/
theorem C9_amended_witness :
    ∃ l ∈ cg9, ∃ w ∈ l.wvars,
      ((("conv2d_1/kernel:0"), (6 : Int), ([128] : List Int)) :
        String × Int × List Int).1 = w.name ∧
      ((("conv2d_1/kernel:0"), (6 : Int), ([128] : List Int)) :
        String × Int × List Int).2.2
        = w.values.map fun v => npRound (v * (2 : ℚ) ^
            ((("conv2d_1/kernel:0"), (6 : Int), ([128] : List Int)) :
              String × Int × List Int).2.1) :=
  C9_amended.1 fuse0 cg9 sl9 out9 (by decide) gen9_ok _ (by decide)

/-- Claim C10 is false as stated: `cg10` places a batch-normalization
layer directly after a dense (weighted) layer, which the claim says is
supported, yet `generate_weights` raises because the source's check only
accepts predecessors whose name contains `conv`. -/
theorem C10_counterexample :
    (generate_weights_core fuse0 cg10 (some t10)).isOk = false ∧
    claim_bn_ok cg10 = true := by
  constructor
  · rw [show generate_weights_core fuse0 cg10 (some t10)
        = gen_go fuse0 cg10 (some t10) cg10 from rfl]
    rw [gen_go_isOk fuse0 cg10 t10 cg10]
    decide
  · decide

/-- Claim C10 (amended): with calibration data present, the layer loop
of `generate_weights` fails exactly when the graph contains a weighted
batch-normalization layer whose direct predecessor's name does not
contain `conv` — dense predecessors also abort the run, contrary to the
claim. -/
theorem C10_amended (fuse : Layer → Layer → List WVar) (g : List Layer) (t : Table) :
    (generate_weights_core fuse g (some t)).isOk
      = !(g.any fun l => !l.wvars.isEmpty &&
          (strContains l.name ("batch_normalization") &&
            !strContains (l.inputs.headD ("")) ("conv"))) :=
  gen_go_isOk fuse g t g
